import Mathlib

set_option maxHeartbeats 1000000

/-
Verification of the CEGAR abstraction/refinement engine for feed-forward
neural networks (repository `cegarette_nn`, directory `src/redesign`).

The Python data model is shallowly embedded as follows.

* `NeuronId` (src/redesign/datastructures.py): name, optional sign, optional
  scaling, and a provenance set `original_neurons`.  Python equality and
  hashing of `NeuronId` use only `(name, sign, scaling)`; provenance is
  excluded.  We therefore use the boolean relation `nidEq` for every lookup
  and membership test, never Lean structural equality.  Provenance sets
  (Python `frozenset`) are carried as lists and compared with the
  set-equality predicate `nidSetEq`.
* `WeightsTable` / `BiasTable`: a table is a pair of label lists
  (`srcs`/`dests`) plus a total value function.  In the Python code missing
  labels raise `KeyError`; faithfulness at those crash points is modelled
  with `Option` results where a verified claim depends on it (the row lookup
  performed by `refine_layer`).  Every table also carries `_orig_table`
  (here `orig_table : Option BareTable`) and `_abstraction_steps`
  (`abstraction_steps`).  In all states reachable in the code, an origin
  table has no origin and no history of its own (origins are captured at the
  first abstraction and propagated unchanged), so the origin is stored as a
  bare table.
* Weight values are Python floats; they are modelled as rationals.
* Functions that raise (`ValueError`, `AssertionError`, `KeyError`) are
  modelled with `Option`/`Except` results, where `none`/`.error` marks the
  raising executions.
-/

namespace CegarNN

/-- Neuron sign classification (src/redesign/datastructures.py, `Sign`). -/
inductive Sign where
  | Pos
  | Neg
deriving DecidableEq

/-- Neuron scaling classification (src/redesign/datastructures.py, `Scaling`). -/
inductive Scaling where
  | Inc
  | Dec
deriving DecidableEq

/-- Activation functions of the network (src/redesign/datastructures.py,
`ActivationFunction`). -/
inductive ActivationFunction where
  | Relu
  | Id
deriving DecidableEq

/-- Neuron identifier (src/redesign/datastructures.py, `NeuronId`): a name, an
optional sign, an optional scaling and the provenance set `original_neurons`
(kept as a list; Python uses a `frozenset`). -/
inductive NeuronId where
  | mk (name : String) (sign : Option Sign) (scaling : Option Scaling)
      (original_neurons : List NeuronId)

/-- Field accessor for `NeuronId.name`. -/
def NeuronId.name : NeuronId → String
  | .mk n _ _ _ => n

/-- Field accessor for `NeuronId.sign`. -/
def NeuronId.sign : NeuronId → Option Sign
  | .mk _ s _ _ => s

/-- Field accessor for `NeuronId.scaling`. -/
def NeuronId.scaling : NeuronId → Option Scaling
  | .mk _ _ s _ => s

/-- Field accessor for `NeuronId.original_neurons`. -/
def NeuronId.original_neurons : NeuronId → List NeuronId
  | .mk _ _ _ o => o

/-- The `type` property of a neuron: the pair `(sign, scaling)`
(src/redesign/datastructures.py, `NeuronId.type`). -/
def NeuronId.type (n : NeuronId) : Option Sign × Option Scaling :=
  (n.sign, n.scaling)

/-- Python equality of `NeuronId`: it compares only `(name, sign, scaling)`
and ignores the provenance set (src/redesign/datastructures.py,
`NeuronId.__eq__`). -/
def nidEq (a b : NeuronId) : Bool :=
  decide (a.name = b.name) && decide (a.sign = b.sign) && decide (a.scaling = b.scaling)

/-- Membership of a neuron in a list of neurons, under Python `NeuronId`
equality (used for `in` tests on sets of `NeuronId`). -/
def memN (x : NeuronId) (l : List NeuronId) : Bool :=
  l.any (fun y => nidEq y x)

/-- Equality of two neuron collections viewed as sets under Python `NeuronId`
equality (Python `frozenset` equality). -/
def nidSetEq (l₁ l₂ : List NeuronId) : Prop :=
  (∀ x ∈ l₁, memN x l₂ = true) ∧ (∀ x ∈ l₂, memN x l₁ = true)

/-- String key used to order optional signs; Python orders `Sign` members as
strings ("Pos"/"Neg") because `Sign` derives from `str`.  Comparing a `None`
sign with a set one raises in Python; that situation is unreachable because
table labels have unique names, and here `none` is ordered first. -/
def signKey : Option Sign → String
  | none => ""
  | some .Pos => "Pos"
  | some .Neg => "Neg"

/-- String key used to order optional scalings (see `signKey`). -/
def scalingKey : Option Scaling → String
  | none => ""
  | some .Inc => "Inc"
  | some .Dec => "Dec"

/-- The ordering of `NeuronId` used by `sort_index`: lexicographic on
`(name, sign, scaling)` (src/redesign/datastructures.py, `NeuronId.__lt__`). -/
def nidLe (a b : NeuronId) : Bool :=
  if a.name = b.name then
    if signKey a.sign = signKey b.sign then decide (scalingKey a.scaling ≤ scalingKey b.scaling)
    else decide (signKey a.sign < signKey b.sign)
  else decide (a.name < b.name)

/-- Strict Python ordering `a < b` of `NeuronId` as used in tuple comparisons
by `find_winner_and_runnerup`. -/
def nidLt (a b : NeuronId) : Bool :=
  if a.name = b.name then
    if signKey a.sign = signKey b.sign then decide (scalingKey a.scaling < scalingKey b.scaling)
    else decide (signKey a.sign < signKey b.sign)
  else decide (a.name < b.name)

/-- Insertion of one label into a sorted label list (helper for the model of
pandas `sort_index`). -/
def insertLe (x : NeuronId) : List NeuronId → List NeuronId
  | [] => [x]
  | y :: ys => if nidLe x y then x :: y :: ys else y :: insertLe x ys

/-- Deterministic sort of a label list, modelling pandas `sort_index` on an
axis of unique labels. -/
def sortNids (l : List NeuronId) : List NeuronId :=
  l.foldr insertLe []

/-- The synthetic bias row label (src/redesign/datastructures.py, `UNIT`). -/
def UNIT : NeuronId := .mk "_unit" none none []

/-- A table of values: row labels, column labels and a total value function
(the data of a pandas `DataFrame` of weights). -/
structure BareTable where
  srcs : List NeuronId
  dests : List NeuronId
  val : NeuronId → NeuronId → ℚ

/-- An abstraction step: the synthesized abstract neuron and the grouped
nodes (src/redesign/abstraction/abstraction.py, `AbstractionStep`). -/
structure AbstractionStep where
  new_name : NeuronId
  nodes : List NeuronId

/-- A weights table together with its abstraction bookkeeping: `_orig_table`
(the table before any abstraction, `none` for fresh tables) and
`_abstraction_steps`, the ordered `(axis, step)` history
(src/redesign/datastructures.py, `WeightsTable`).  A `BiasTable` is the same
structure whose only row label is `UNIT`. -/
structure WeightsTable where
  tbl : BareTable
  orig_table : Option BareTable
  abstraction_steps : List (Nat × AbstractionStep)

/-- The `AbstractionStep` constructor for a string `new_name`
(src/redesign/abstraction/abstraction.py, `AbstractionStep.__init__`, branch
`isinstance(new_name, str)`): requires at least 2 nodes, takes sign and
scaling from the first node, and sets the provenance of the synthesized
neuron to the grouped nodes themselves.  `none` models the raised
`ValueError`. -/
def mkAbstractionStepOfString (new_name : String) (nodes : List NeuronId) :
    Option AbstractionStep :=
  match nodes with
  | n0 :: _ :: _ => some ⟨.mk new_name n0.sign n0.scaling nodes, nodes⟩
  | _ => none

/-- The `AbstractionStep` constructor for a `NeuronId` `new_name`
(src/redesign/abstraction/abstraction.py, `AbstractionStep.__init__`, branch
`isinstance(new_name, NeuronId)`): additionally requires the given name's
type to match the first node's type.  `none` models the raised
`ValueError`. -/
def mkAbstractionStepOfNeuronId (new_name : NeuronId) (nodes : List NeuronId) :
    Option AbstractionStep :=
  match nodes with
  | n0 :: _ :: _ =>
    if new_name.type = n0.type then
      some ⟨.mk new_name.name new_name.sign new_name.scaling nodes, nodes⟩
    else none
  | _ => none

/-- Aggregation of a list of values by a binary function, modelling Python
`max`/`min`/`sum` over the pandas slice selected by the grouped nodes (the
empty case is unreachable: steps have at least 2 nodes). -/
def aggList (f : ℚ → ℚ → ℚ) : List ℚ → ℚ
  | [] => 0
  | x :: xs => xs.foldl f x

/-- Abstraction of a weights table whose destination axis contains the
grouped nodes (src/redesign/abstraction/abstraction.py,
`_abstract_weights_as_incoming`): the grouped columns are replaced by one
column for the abstract neuron holding, per source, the `max` of the grouped
values when the first node's scaling is `Inc`, else the `min`; the column
labels are re-sorted; the origin table is kept (or captured if absent) and
`(1, step)` is appended to the history. -/
def abstract_weights_as_incoming (incoming : WeightsTable) (step : AbstractionStep) :
    WeightsTable :=
  let scaling := (step.nodes.headD UNIT).scaling
  let agg : ℚ → ℚ → ℚ := if scaling = some Scaling.Inc then max else min
  { tbl :=
      { srcs := incoming.tbl.srcs
        dests := sortNids ((incoming.tbl.dests.filter (fun d => !(memN d step.nodes))) ++
          [step.new_name])
        val := fun s d =>
          if nidEq d step.new_name then
            aggList agg (step.nodes.map (fun n => incoming.tbl.val s n))
          else incoming.tbl.val s d }
    orig_table := some (incoming.orig_table.getD incoming.tbl)
    abstraction_steps := incoming.abstraction_steps ++ [(1, step)] }

/-- Abstraction of a weights table whose source axis contains the grouped
nodes (src/redesign/abstraction/abstraction.py,
`_abstract_weights_as_outgoing`): the grouped rows are replaced by one row
for the abstract neuron holding, per destination, the `sum` of the grouped
values; the row labels are re-sorted; `(0, step)` is appended to the
history. -/
def abstract_weights_as_outgoing (outgoing : WeightsTable) (step : AbstractionStep) :
    WeightsTable :=
  { tbl :=
      { srcs := sortNids ((outgoing.tbl.srcs.filter (fun s => !(memN s step.nodes))) ++
          [step.new_name])
        dests := outgoing.tbl.dests
        val := fun s d =>
          if nidEq s step.new_name then
            (step.nodes.map (fun n => outgoing.tbl.val n d)).sum
          else outgoing.tbl.val s d }
    orig_table := some (outgoing.orig_table.getD outgoing.tbl)
    abstraction_steps := outgoing.abstraction_steps ++ [(0, step)] }

/-- Abstraction of a bias table (src/redesign/abstraction/abstraction.py,
`_abstract_biases`): aggregates the grouped columns exactly like
`_abstract_weights_as_incoming` (`max` for `Inc`, else `min`) and appends
`(1, step)` to the history. -/
def abstract_biases (biases : WeightsTable) (step : AbstractionStep) : WeightsTable :=
  let scaling := (step.nodes.headD UNIT).scaling
  let agg : ℚ → ℚ → ℚ := if scaling = some Scaling.Inc then max else min
  { tbl :=
      { srcs := biases.tbl.srcs
        dests := sortNids ((biases.tbl.dests.filter (fun d => !(memN d step.nodes))) ++
          [step.new_name])
        val := fun s d =>
          if nidEq d step.new_name then
            aggList agg (step.nodes.map (fun n => biases.tbl.val s n))
          else biases.tbl.val s d }
    orig_table := some (biases.orig_table.getD biases.tbl)
    abstraction_steps := biases.abstraction_steps ++ [(1, step)] }

/-- One abstraction step on a layer (src/redesign/abstraction/abstraction.py,
`abstract_layer`): asserts that the first grouped node is classified (has
both a sign and a scaling; `none` models the failing `assert`), then
abstracts the incoming table, the outgoing table and the bias table. -/
def abstract_layer (incoming outgoing biases : WeightsTable) (step : AbstractionStep) :
    Option (WeightsTable × WeightsTable × WeightsTable) :=
  match step.nodes with
  | [] => none
  | n0 :: _ =>
    if n0.sign.isSome && n0.scaling.isSome then
      some (abstract_weights_as_incoming incoming step,
            abstract_weights_as_outgoing outgoing step,
            abstract_biases biases step)
    else none

/-- A refinement step (src/redesign/refinement/refine.py, `RefinementStep`):
the abstract neuron to refine and the optional subset of its provenance to
split out (`none` refines everything). -/
structure RefinementStep where
  target_neuron : NeuronId
  parts : Option (List NeuronId) := none

/-- Removal of discarded nodes from one abstraction step
(src/redesign/refinement/refine.py, `step_without`): if more than one node
survives, the step is rebuilt through the `AbstractionStep` constructor with
the same `new_name`; otherwise the step is dropped (`.ok none`).  `.error`
models the `ValueError` the constructor would raise on a type mismatch. -/
def step_without (step : AbstractionStep) (to_discard : List NeuronId) :
    Except Unit (Option AbstractionStep) :=
  if ((step.nodes.filter (fun n => !(memN n to_discard))).length > 1) then
    match mkAbstractionStepOfNeuronId step.new_name
        (step.nodes.filter (fun n => !(memN n to_discard))) with
    | some s => .ok (some s)
    | none => .error ()
  else .ok none

/-- Filtering of an abstraction history for a refinement
(src/redesign/refinement/refine.py, `_filter_abstraction_steps`): entries on
the other axis are kept verbatim; entries on the matching axis are rebuilt
without the discarded nodes, and an entry that disappears adds its own
abstract name to the discard set for the remaining entries. -/
def filter_abstraction_steps (steps : List (Nat × AbstractionStep))
    (to_discard : List NeuronId) (axis : Nat) :
    Except Unit (List (Nat × AbstractionStep)) :=
  match steps with
  | [] => .ok []
  | (step_axis, abs_step) :: rest =>
    if step_axis = axis then
      match step_without abs_step to_discard with
      | .error e => .error e
      | .ok (some s) =>
        (filter_abstraction_steps rest to_discard axis).map (fun l => (step_axis, s) :: l)
      | .ok none => filter_abstraction_steps rest (abs_step.new_name :: to_discard) axis
    else (filter_abstraction_steps rest to_discard axis).map (fun l => (step_axis, abs_step) :: l)

/-- A fresh table around a bare table: no origin, no history (the state of an
origin table when replay starts from it). -/
def freshTable (b : BareTable) : WeightsTable :=
  ⟨b, none, []⟩

/-- Replay of one retained history entry during refinement: axis 0 entries
reapply `_abstract_weights_as_outgoing`, axis 1 entries reapply
`_abstract_weights_as_incoming` (the replay loops of `refine_layer`). -/
def replayStep (t : WeightsTable) (e : Nat × AbstractionStep) : WeightsTable :=
  if e.1 = 0 then abstract_weights_as_outgoing t e.2 else abstract_weights_as_incoming t e.2

/-- One refinement step on a layer (src/redesign/refinement/refine.py,
`refine_layer`): looks up the stored label of the target neuron in the
outgoing table's rows (`none` models the `KeyError` when it is absent),
determines the parts to split out (the full stored provenance when `parts`
is `None` or empty), filters the three histories, and replays the retained
entries starting from each origin table.  A missing origin is also mapped to
`none`: the Python code would return `None` tables there, poisoning every
later use. -/
def refine_layer (incoming outgoing biases : WeightsTable) (step : RefinementStep) :
    Option (WeightsTable × WeightsTable × WeightsTable) := do
  let target ← outgoing.tbl.srcs.find? (fun n => nidEq n step.target_neuron)
  let new_ids :=
    match step.parts with
    | some (p :: ps) => p :: ps
    | _ => target.original_neurons
  let incoming_new_steps ← (filter_abstraction_steps incoming.abstraction_steps new_ids 1).toOption
  let outgoing_new_steps ← (filter_abstraction_steps outgoing.abstraction_steps new_ids 0).toOption
  let biases_new_steps ← (filter_abstraction_steps biases.abstraction_steps new_ids 1).toOption
  let iOrig ← incoming.orig_table
  let oOrig ← outgoing.orig_table
  let bOrig ← biases.orig_table
  let new_incoming := incoming_new_steps.foldl replayStep (freshTable iOrig)
  let new_outgoing := outgoing_new_steps.foldl replayStep (freshTable oOrig)
  let new_biases := biases_new_steps.foldl (fun t e => abstract_biases t e.2) (freshTable bOrig)
  return (new_incoming, new_outgoing, new_biases)

/-- Dispatch of the `AbstractionStep` constructor on the runtime type of
`new_name` (src/redesign/abstraction/abstraction.py,
`AbstractionStep.__init__`). -/
def mkAbstractionStep : String ⊕ NeuronId → List NeuronId → Option AbstractionStep
  | .inl s, nodes => mkAbstractionStepOfString s nodes
  | .inr nid, nodes => mkAbstractionStepOfNeuronId nid nodes

theorem nidEq_refl (a : NeuronId) : nidEq a a = true := by
  simp [nidEq]

theorem memN_of_mem {x : NeuronId} {l : List NeuronId} (h : x ∈ l) : memN x l = true :=
  List.any_eq_true.mpr ⟨x, h, nidEq_refl x⟩

theorem foldl_max_spec (xs : List ℚ) (x : ℚ) :
    xs.foldl max x ∈ x :: xs ∧ ∀ q ∈ x :: xs, q ≤ xs.foldl max x := by
  induction xs generalizing x with
  | nil => exact ⟨List.mem_singleton.mpr rfl, by simp⟩
  | cons y ys ih =>
    have hfold : (y :: ys).foldl max x = ys.foldl max (max x y) := rfl
    obtain ⟨hmem, hbound⟩ := ih (max x y)
    constructor
    · rw [hfold]
      rcases List.mem_cons.mp hmem with hcase | hcase
      · rcases max_choice x y with hc | hc
        · rw [hcase, hc]; exact List.mem_cons_self _ _
        · rw [hcase, hc]; exact List.mem_cons_of_mem _ (List.mem_cons_self _ _)
      · exact List.mem_cons_of_mem _ (List.mem_cons_of_mem _ hcase)
    · intro q hq
      rw [hfold]
      have hxy : max x y ≤ ys.foldl max (max x y) := hbound _ (List.mem_cons_self _ _)
      rcases List.mem_cons.mp hq with hcase | hcase
      · exact le_trans (hcase ▸ le_max_left x y) hxy
      · rcases List.mem_cons.mp hcase with hcase2 | hcase2
        · exact le_trans (hcase2 ▸ le_max_right x y) hxy
        · exact hbound _ (List.mem_cons_of_mem _ hcase2)

theorem foldl_min_spec (xs : List ℚ) (x : ℚ) :
    xs.foldl min x ∈ x :: xs ∧ ∀ q ∈ x :: xs, xs.foldl min x ≤ q := by
  induction xs generalizing x with
  | nil => exact ⟨List.mem_singleton.mpr rfl, by simp⟩
  | cons y ys ih =>
    have hfold : (y :: ys).foldl min x = ys.foldl min (min x y) := rfl
    obtain ⟨hmem, hbound⟩ := ih (min x y)
    constructor
    · rw [hfold]
      rcases List.mem_cons.mp hmem with hcase | hcase
      · rcases min_choice x y with hc | hc
        · rw [hcase, hc]; exact List.mem_cons_self _ _
        · rw [hcase, hc]; exact List.mem_cons_of_mem _ (List.mem_cons_self _ _)
      · exact List.mem_cons_of_mem _ (List.mem_cons_of_mem _ hcase)
    · intro q hq
      rw [hfold]
      have hxy : ys.foldl min (min x y) ≤ min x y := hbound _ (List.mem_cons_self _ _)
      rcases List.mem_cons.mp hq with hcase | hcase
      · exact le_trans hxy (hcase ▸ min_le_left x y)
      · rcases List.mem_cons.mp hcase with hcase2 | hcase2
        · exact le_trans hxy (hcase2 ▸ min_le_right x y)
        · exact hbound _ (List.mem_cons_of_mem _ hcase2)

/-- C2: for every `AbstractionStep`, in the tables produced by
`abstract_layer` the abstract neuron's outgoing weight at a fixed destination
is the sum of the group members' outgoing weights there; and when the whole
group is `Inc`-scaled, its incoming weight at a fixed source is the maximum
of the group members' incoming weights there (the minimum when the group is
`Dec`-scaled), the biases aggregating exactly like incoming weights. -/
theorem abstract_layer_aggregation (incoming outgoing biases : WeightsTable)
    (step : AbstractionStep) (i' o' b' : WeightsTable)
    (h : abstract_layer incoming outgoing biases step = some (i', o', b'))
    (src dest : NeuronId) :
    o'.tbl.val step.new_name dest = (step.nodes.map (fun n => outgoing.tbl.val n dest)).sum ∧
    ((∀ n ∈ step.nodes, n.scaling = some Scaling.Inc) →
      (i'.tbl.val src step.new_name ∈ step.nodes.map (fun n => incoming.tbl.val src n) ∧
        ∀ q ∈ step.nodes.map (fun n => incoming.tbl.val src n),
          q ≤ i'.tbl.val src step.new_name) ∧
      (b'.tbl.val UNIT step.new_name ∈ step.nodes.map (fun n => biases.tbl.val UNIT n) ∧
        ∀ q ∈ step.nodes.map (fun n => biases.tbl.val UNIT n),
          q ≤ b'.tbl.val UNIT step.new_name)) ∧
    ((∀ n ∈ step.nodes, n.scaling = some Scaling.Dec) →
      (i'.tbl.val src step.new_name ∈ step.nodes.map (fun n => incoming.tbl.val src n) ∧
        ∀ q ∈ step.nodes.map (fun n => incoming.tbl.val src n),
          i'.tbl.val src step.new_name ≤ q) ∧
      (b'.tbl.val UNIT step.new_name ∈ step.nodes.map (fun n => biases.tbl.val UNIT n) ∧
        ∀ q ∈ step.nodes.map (fun n => biases.tbl.val UNIT n),
          b'.tbl.val UNIT step.new_name ≤ q)) := by
  rcases hnodes : step.nodes with _ | ⟨n0, rest⟩
  · rw [abstract_layer, hnodes] at h
    exact absurd h (by simp)
  · rw [abstract_layer, hnodes] at h
    dsimp only at h
    by_cases hcl : (n0.sign.isSome && n0.scaling.isSome) = true
    · rw [if_pos hcl] at h
      simp only [Option.some.injEq, Prod.mk.injEq] at h
      obtain ⟨hi, ho, hb⟩ := h
      refine ⟨?_, ?_, ?_⟩
      · rw [← ho]
        simp only [abstract_weights_as_outgoing, nidEq_refl, if_true, hnodes]
      · intro hInc
        have hn0 : n0.scaling = some Scaling.Inc := hInc n0 (List.mem_cons_self _ _)
        constructor
        · rw [← hi]
          simp only [abstract_weights_as_incoming, hnodes, List.headD_cons, hn0,
            if_pos rfl, nidEq_refl, if_pos rfl, aggList, List.map_cons]
          exact foldl_max_spec _ _
        · rw [← hb]
          simp only [abstract_biases, hnodes, List.headD_cons, hn0,
            if_pos rfl, nidEq_refl, if_pos rfl, aggList, List.map_cons]
          exact foldl_max_spec _ _
      · intro hDec
        have hn0 : n0.scaling = some Scaling.Dec := hDec n0 (List.mem_cons_self _ _)
        have hne : ¬ ((n0.scaling = some Scaling.Inc)) := by rw [hn0]; intro hc; cases hc
        constructor
        · rw [← hi]
          simp only [abstract_weights_as_incoming, hnodes, List.headD_cons,
            if_neg hne, nidEq_refl, if_pos rfl, aggList, List.map_cons]
          exact foldl_min_spec _ _
        · rw [← hb]
          simp only [abstract_biases, hnodes, List.headD_cons,
            if_neg hne, nidEq_refl, if_pos rfl, aggList, List.map_cons]
          exact foldl_min_spec _ _
    · rw [if_neg hcl] at h
      exact absurd h (by simp)

theorem nidSetEq_refl (l : List NeuronId) : nidSetEq l l :=
  ⟨fun _ hx => memN_of_mem hx, fun _ hx => memN_of_mem hx⟩

instance (l₁ l₂ : List NeuronId) : Decidable (nidSetEq l₁ l₂) := by
  unfold nidSetEq
  infer_instance

theorem mem_insertLe {a x : NeuronId} {l : List NeuronId} :
    a ∈ insertLe x l ↔ a = x ∨ a ∈ l := by
  induction l with
  | nil => simp [insertLe]
  | cons y ys ih =>
    rw [insertLe]
    split
    · simp
    · simp only [List.mem_cons, ih]
      tauto

theorem mem_sortNids {a : NeuronId} {l : List NeuronId} : a ∈ sortNids l ↔ a ∈ l := by
  induction l with
  | nil => simp [sortNids]
  | cons x xs ih =>
    show a ∈ insertLe x (sortNids xs) ↔ _
    rw [mem_insertLe, ih, List.mem_cons]

theorem find?_eq_some_of_unique {p : NeuronId → Bool} {l : List NeuronId} {a : NeuronId}
    (hmem : a ∈ l) (hpa : p a = true) (huniq : ∀ x ∈ l, p x = true → x = a) :
    l.find? p = some a := by
  induction l with
  | nil => cases hmem
  | cons b t ih =>
    rcases hb : p b with _ | _
    · rw [List.find?_cons_of_neg _ (by simp [hb])]
      apply ih
      · rcases List.mem_cons.mp hmem with hab | hat
        · rw [hab] at hpa
          rw [hpa] at hb
          cases hb
        · exact hat
      · exact fun x hx hpx => huniq x (List.mem_cons_of_mem _ hx) hpx
    · rw [List.find?_cons_of_pos _ hb]
      rw [huniq b (List.mem_cons_self _ _) hb]

/-- Example neurons and tables used by the concrete witnesses below: a
network layer with one source `x`, two classified hidden neurons `h1`, `h2`
(both `Pos`/`Inc`) and one destination `y`. -/
def nX : NeuronId := .mk "x" none none []

/-- Example destination neuron (see `nX`). -/
def nY : NeuronId := .mk "y" none none []

/-- Example classified hidden neuron (see `nX`). -/
def nH1 : NeuronId := .mk "h1" (some .Pos) (some .Inc) []

/-- Example classified hidden neuron (see `nX`). -/
def nH2 : NeuronId := .mk "h2" (some .Pos) (some .Inc) []

/-- Example abstraction step grouping `h1` and `h2`, as built by the
`AbstractionStep` constructor from the string name "A". -/
def exStep : AbstractionStep :=
  ⟨.mk "A" (some .Pos) (some .Inc) [nH1, nH2], [nH1, nH2]⟩

/-- Example incoming weights table (`x` to `h1`, `h2`). -/
def exInc : WeightsTable :=
  ⟨⟨[nX], [nH1, nH2], fun _ d => if nidEq d nH1 then 1 else 2⟩, none, []⟩

/-- Example outgoing weights table (`h1`, `h2` to `y`). -/
def exOut : WeightsTable :=
  ⟨⟨[nH1, nH2], [nY], fun s _ => if nidEq s nH1 then 3 else 4⟩, none, []⟩

/-- Example bias table for the hidden layer. -/
def exBias : WeightsTable :=
  ⟨⟨[UNIT], [nH1, nH2], fun _ d => if nidEq d nH1 then 5 else 6⟩, none, []⟩

/-- The concrete result of abstracting the example layer. -/
def c2res : WeightsTable × WeightsTable × WeightsTable :=
  (abstract_layer exInc exOut exBias exStep).getD (exInc, exOut, exBias)

/-- Witness for C2: the aggregation theorem applied to the concrete example
layer. -/
theorem abstract_layer_aggregation_witness :
    (∀ n ∈ exStep.nodes, n.scaling = some Scaling.Inc) ∧
    c2res.2.1.tbl.val exStep.new_name nY =
      (exStep.nodes.map (fun n => exOut.tbl.val n nY)).sum ∧
    (c2res.1.tbl.val nX exStep.new_name ∈ exStep.nodes.map (fun n => exInc.tbl.val nX n) ∧
      ∀ q ∈ exStep.nodes.map (fun n => exInc.tbl.val nX n),
        q ≤ c2res.1.tbl.val nX exStep.new_name) :=
  ⟨by decide,
   (abstract_layer_aggregation exInc exOut exBias exStep c2res.1 c2res.2.1 c2res.2.2
     rfl nX nY).1,
   ((abstract_layer_aggregation exInc exOut exBias exStep c2res.1 c2res.2.1 c2res.2.2
     rfl nX nY).2.1 (by decide)).1⟩

/-- Example concrete neuron for the C6 counterexample. -/
def cA : NeuronId := .mk "a" (some .Pos) (some .Inc) []

/-- Example concrete neuron for the C6 counterexample. -/
def cB : NeuronId := .mk "b" (some .Pos) (some .Inc) []

/-- Counterexample for C6: grouping the two concrete neurons `a`, `b` (both
with empty provenance) synthesizes a `new_name` whose `original_neurons` is
the set of the grouped neurons themselves, which differs from the flattened
union of the grouped neurons' own provenance sets (that union is empty). -/
theorem abstraction_step_provenance_counterexample :
    mkAbstractionStep (.inl "A") [cA, cB] =
      some ⟨.mk "A" (some .Pos) (some .Inc) [cA, cB], [cA, cB]⟩ ∧
    ¬ nidSetEq (NeuronId.mk "A" (some .Pos) (some .Inc) [cA, cB]).original_neurons
      (([cA, cB].map NeuronId.original_neurons).flatten) :=
  ⟨rfl, by decide⟩

/-- C6 (amended): for every `AbstractionStep` constructed from a group of
neurons sharing the classification `(σ, τ)`, the synthesized `new_name`
carries that shared sign and scaling, and its `original_neurons` field is
the set of the grouped neurons themselves (so grouping already-abstract
neurons records those abstract neurons, not their concrete members). -/
theorem abstraction_step_new_name_spec (arg : String ⊕ NeuronId) (nodes : List NeuronId)
    (σ : Sign) (τ : Scaling) (st : AbstractionStep)
    (hty : ∀ n ∈ nodes, n.sign = some σ ∧ n.scaling = some τ)
    (h : mkAbstractionStep arg nodes = some st) :
    st.new_name.sign = some σ ∧ st.new_name.scaling = some τ ∧
    nidSetEq st.new_name.original_neurons nodes ∧ st.nodes = nodes := by
  cases arg with
  | inl s =>
    rcases nodes with _ | ⟨n0, _ | ⟨n1, rest⟩⟩
    · exact absurd h (by simp [mkAbstractionStep, mkAbstractionStepOfString])
    · exact absurd h (by simp [mkAbstractionStep, mkAbstractionStepOfString])
    · simp only [mkAbstractionStep, mkAbstractionStepOfString, Option.some.injEq] at h
      obtain ⟨h0, h0'⟩ := hty n0 (List.mem_cons_self _ _)
      rw [← h]
      exact ⟨h0, h0', nidSetEq_refl _, rfl⟩
  | inr nid =>
    rcases nodes with _ | ⟨n0, _ | ⟨n1, rest⟩⟩
    · exact absurd h (by simp [mkAbstractionStep, mkAbstractionStepOfNeuronId])
    · exact absurd h (by simp [mkAbstractionStep, mkAbstractionStepOfNeuronId])
    · simp only [mkAbstractionStep, mkAbstractionStepOfNeuronId] at h
      split at h
      · next hcond =>
        simp only [Option.some.injEq] at h
        obtain ⟨h0, h0'⟩ := hty n0 (List.mem_cons_self _ _)
        have hsg : nid.sign = some σ := by
          have := congrArg Prod.fst hcond
          simp only [NeuronId.type] at this
          rw [this, h0]
        have hsc : nid.scaling = some τ := by
          have := congrArg Prod.snd hcond
          simp only [NeuronId.type] at this
          rw [this, h0']
        rw [← h]
        exact ⟨hsg, hsc, nidSetEq_refl _, rfl⟩
      · cases h

/-- Witness for C6 (amended): the constructor applied to the concrete group
`[a, b]` of `Pos`/`Inc` neurons. -/
theorem abstraction_step_new_name_spec_witness :
    (∀ n ∈ [cA, cB], n.sign = some Sign.Pos ∧ n.scaling = some Scaling.Inc) ∧
    ((NeuronId.mk "A" (some .Pos) (some .Inc) [cA, cB]).sign = some Sign.Pos ∧
      (NeuronId.mk "A" (some .Pos) (some .Inc) [cA, cB]).scaling = some Scaling.Inc ∧
      nidSetEq (NeuronId.mk "A" (some .Pos) (some .Inc) [cA, cB]).original_neurons [cA, cB] ∧
      (AbstractionStep.mk (.mk "A" (some .Pos) (some .Inc) [cA, cB]) [cA, cB]).nodes =
        [cA, cB]) :=
  ⟨by decide,
   abstraction_step_new_name_spec (.inl "A") [cA, cB] Sign.Pos Scaling.Inc
     ⟨.mk "A" (some .Pos) (some .Inc) [cA, cB], [cA, cB]⟩ (by decide) rfl⟩

theorem filter_not_memN_self (l : List NeuronId) :
    l.filter (fun n => !(memN n l)) = [] :=
  List.filter_eq_nil_iff.mpr (fun a ha => by simp [memN_of_mem ha])

theorem filter_not_memN_sub {l d : List NeuronId} (h : ∀ n ∈ l, memN n d = true) :
    l.filter (fun n => !(memN n d)) = [] :=
  List.filter_eq_nil_iff.mpr (fun a ha => by simp [h a ha])

/-- C1: starting from tables with no prior abstraction history, abstracting a
layer by one valid `AbstractionStep` over classified neurons and then fully
refining its abstract neuron (`RefinementStep(step.new_name, parts=None)`)
returns exactly the original `(incoming, outgoing, biases)` tables. -/
theorem abstract_then_full_refine_roundtrip
    (incoming outgoing biases : WeightsTable) (name : String) (nodes : List NeuronId)
    (st : AbstractionStep)
    (hstep : mkAbstractionStepOfString name nodes = some st)
    (hclass : ∀ n ∈ nodes, n.sign.isSome ∧ n.scaling.isSome)
    (hfresh_i : incoming.orig_table = none) (hsteps_i : incoming.abstraction_steps = [])
    (hfresh_o : outgoing.orig_table = none) (hsteps_o : outgoing.abstraction_steps = [])
    (hfresh_b : biases.orig_table = none) (hsteps_b : biases.abstraction_steps = [])
    (hnocol : ∀ s ∈ outgoing.tbl.srcs, nidEq s st.new_name = false) :
    ∃ i' o' b', abstract_layer incoming outgoing biases st = some (i', o', b') ∧
      refine_layer i' o' b' ⟨st.new_name, none⟩ = some (incoming, outgoing, biases) := by
  rcases incoming with ⟨itbl, iorig, isteps⟩
  rcases outgoing with ⟨otbl, oorig, osteps⟩
  rcases biases with ⟨btbl, borig, bsteps⟩
  dsimp only at hfresh_i hsteps_i hfresh_o hsteps_o hfresh_b hsteps_b hnocol
  subst hfresh_i hsteps_i hfresh_o hsteps_o hfresh_b hsteps_b
  rcases hn : nodes with _ | ⟨n0, _ | ⟨n1, rest⟩⟩
  · rw [hn] at hstep
    exact absurd hstep (by simp [mkAbstractionStepOfString])
  · rw [hn] at hstep
    exact absurd hstep (by simp [mkAbstractionStepOfString])
  · rw [hn] at hstep hclass
    simp only [mkAbstractionStepOfString, Option.some.injEq] at hstep
    subst hstep
    obtain ⟨hs0, hc0⟩ := hclass n0 (List.mem_cons_self _ _)
    refine ⟨abstract_weights_as_incoming ⟨itbl, none, []⟩
        ⟨.mk name n0.sign n0.scaling (n0 :: n1 :: rest), n0 :: n1 :: rest⟩,
      abstract_weights_as_outgoing ⟨otbl, none, []⟩
        ⟨.mk name n0.sign n0.scaling (n0 :: n1 :: rest), n0 :: n1 :: rest⟩,
      abstract_biases ⟨btbl, none, []⟩
        ⟨.mk name n0.sign n0.scaling (n0 :: n1 :: rest), n0 :: n1 :: rest⟩, ?_, ?_⟩
    · simp [abstract_layer, hs0, hc0]
    · dsimp only at hnocol
      have hfind : (sortNids (otbl.srcs.filter
            (fun s => !(memN s (n0 :: n1 :: rest))) ++
            [NeuronId.mk name n0.sign n0.scaling (n0 :: n1 :: rest)])).find?
          (fun n => nidEq n (NeuronId.mk name n0.sign n0.scaling (n0 :: n1 :: rest))) =
          some (NeuronId.mk name n0.sign n0.scaling (n0 :: n1 :: rest)) := by
        apply find?_eq_some_of_unique
        · rw [mem_sortNids]
          exact List.mem_append.mpr (Or.inr (List.mem_singleton.mpr rfl))
        · exact nidEq_refl _
        · intro x hx hpx
          rw [mem_sortNids] at hx
          rcases List.mem_append.mp hx with hx | hx
          · have hxs := (List.mem_filter.mp hx).1
            rw [hnocol x hxs] at hpx
            cases hpx
          · exact List.mem_singleton.mp hx
      have hswA : step_without
          ⟨NeuronId.mk name n0.sign n0.scaling (n0 :: n1 :: rest), n0 :: n1 :: rest⟩
          (n0 :: n1 :: rest) = Except.ok none := by
        simp [step_without, filter_not_memN_self]
      simp [refine_layer, abstract_weights_as_incoming, abstract_weights_as_outgoing,
        abstract_biases, hfind, hswA, filter_abstraction_steps, Except.toOption,
        freshTable, NeuronId.original_neurons, Option.bind_eq_bind, Option.some_bind]

/-- Witness for C1: round-trip at the concrete example layer. -/
theorem abstract_then_full_refine_roundtrip_witness :
    (∀ n ∈ [nH1, nH2], n.sign.isSome ∧ n.scaling.isSome) ∧
    (∃ iR oR bR, abstract_layer exInc exOut exBias exStep = some (iR, oR, bR) ∧
      refine_layer iR oR bR ⟨exStep.new_name, none⟩ = some (exInc, exOut, exBias)) :=
  ⟨by decide,
   abstract_then_full_refine_roundtrip exInc exOut exBias "A" [nH1, nH2] exStep rfl
     (by decide) rfl rfl rfl rfl rfl rfl (by decide)⟩

/-- Counterexample for C7 as stated: with provenance `P = {h1, h2}` and
`S = {h1}` (so `P ∖ S = {h2}` is a singleton), the first partial refinement
already restores the fully concrete tables — the abstraction step is dropped
because only one survivor remains — so no remaining abstract neuron exists,
and the second `refine_layer` on the remaining parts fails (its row lookup
of the abstract neuron returns nothing), while the single full refinement
succeeds; the claimed equality therefore fails for this non-empty proper
subset. -/
theorem partial_refine_singleton_remainder_counterexample :
    refine_layer c2res.1 c2res.2.1 c2res.2.2 ⟨exStep.new_name, some [nH1]⟩ =
      some (exInc, exOut, exBias) ∧
    refine_layer exInc exOut exBias
      ⟨.mk "A" (some .Pos) (some .Inc) [nH2], some [nH2]⟩ = none ∧
    refine_layer exInc exOut exBias ⟨exStep.new_name, some [nH2]⟩ = none ∧
    refine_layer c2res.1 c2res.2.1 c2res.2.2 ⟨exStep.new_name, none⟩ =
      some (exInc, exOut, exBias) ∧
    (none : Option (WeightsTable × WeightsTable × WeightsTable)) ≠
      some (exInc, exOut, exBias) :=
  ⟨rfl, rfl, rfl, rfl, fun h => Option.noConfusion h⟩

/-- Example third classified hidden neuron, for the three-neuron group used
by the C7 witness. -/
def nH3 : NeuronId := .mk "h3" (some .Pos) (some .Inc) []

/-- Example abstraction step grouping `h1`, `h2`, `h3`. -/
def exStep3 : AbstractionStep :=
  ⟨.mk "B" (some .Pos) (some .Inc) [nH1, nH2, nH3], [nH1, nH2, nH3]⟩

/-- Example incoming weights table for the three-neuron group. -/
def exInc3 : WeightsTable :=
  ⟨⟨[nX], [nH1, nH2, nH3],
    fun _ d => if nidEq d nH1 then 1 else if nidEq d nH2 then 2 else 3⟩, none, []⟩

/-- Example outgoing weights table for the three-neuron group. -/
def exOut3 : WeightsTable :=
  ⟨⟨[nH1, nH2, nH3], [nY],
    fun s _ => if nidEq s nH1 then 4 else if nidEq s nH2 then 5 else 6⟩, none, []⟩

/-- Example bias table for the three-neuron group. -/
def exBias3 : WeightsTable :=
  ⟨⟨[UNIT], [nH1, nH2, nH3],
    fun _ d => if nidEq d nH1 then 7 else if nidEq d nH2 then 8 else 9⟩, none, []⟩

/-- Python `NeuronId` equality unfolded to its three compared fields. -/
theorem nidEq_true_iff {a b : NeuronId} :
    nidEq a b = true ↔ a.name = b.name ∧ a.sign = b.sign ∧ a.scaling = b.scaling := by
  simp [nidEq, and_assoc]

theorem nidEq_trans {a b c : NeuronId} (h1 : nidEq a b = true) (h2 : nidEq b c = true) :
    nidEq a c = true := by
  obtain ⟨x1, x2, x3⟩ := nidEq_true_iff.mp h1
  obtain ⟨y1, y2, y3⟩ := nidEq_true_iff.mp h2
  exact nidEq_true_iff.mpr ⟨x1.trans y1, x2.trans y2, x3.trans y3⟩

theorem nidEq_congr_right {q x y : NeuronId} (h : nidEq x y = true) :
    nidEq q x = nidEq q y := by
  obtain ⟨h1, h2, h3⟩ := nidEq_true_iff.mp h
  simp [nidEq, h1, h2, h3]

/-- A rebuilt neuron name with the same `(name, sign, scaling)` is
Python-equal to the original, whatever its provenance. -/
theorem nidEq_mk_left (n x : NeuronId) (l : List NeuronId) :
    nidEq (.mk n.name n.sign n.scaling l) x = nidEq n x := by
  simp [nidEq, NeuronId.name, NeuronId.sign, NeuronId.scaling]

theorem memN_cons {x n : NeuronId} {l : List NeuronId} :
    memN x (n :: l) = (nidEq n x || memN x l) := by
  simp [memN]

theorem memN_congr {x y : NeuronId} (h : nidEq x y = true) (l : List NeuronId) :
    memN x l = memN y l := by
  induction l with
  | nil => rfl
  | cons n t ih => rw [memN_cons, memN_cons, ih, nidEq_congr_right h]

theorem memN_filter_false {x : NeuronId} {p : NeuronId → Bool} {l : List NeuronId}
    (h : memN x l = false) : memN x (l.filter p) = false := by
  cases hm : memN x (l.filter p) with
  | false => rfl
  | true =>
    obtain ⟨q, hq, hqe⟩ := List.any_eq_true.mp hm
    have hx : memN x l = true := List.any_eq_true.mpr ⟨q, (List.mem_filter.mp hq).1, hqe⟩
    rw [h] at hx
    cases hx

/-- `NeuronId` eta: rebuilding a neuron from its four fields gives it back. -/
theorem nid_eta (n : NeuronId) :
    NeuronId.mk n.name n.sign n.scaling n.original_neurons = n := by
  cases n
  rfl

theorem filter_filter_eq {p q r : NeuronId → Bool} :
    ∀ l : List NeuronId, (∀ x ∈ l, (p x && q x) = r x) →
      (l.filter p).filter q = l.filter r := by
  intro l
  induction l with
  | nil => intro _; rfl
  | cons x t ih =>
    intro h
    have ht := ih (fun y hy => h y (List.mem_cons_of_mem _ hy))
    have hx := h x (List.mem_cons_self _ _)
    cases hp : p x with
    | false =>
      rw [hp, Bool.false_and] at hx
      rw [List.filter_cons, if_neg (by simp [hp]), List.filter_cons,
        if_neg (by rw [← hx]; simp), ht]
    | true =>
      rw [hp, Bool.true_and] at hx
      rw [List.filter_cons, if_pos hp, List.filter_cons, List.filter_cons, ← hx, ht]

/-- The `AbstractionStep` constructor on a group of size at least 2 whose
head matches the given name's type. -/
theorem mkOfNeuronId_eq {nm x0 x1 : NeuronId} {xs : List NeuronId} (h : nm.type = x0.type) :
    mkAbstractionStepOfNeuronId nm (x0 :: x1 :: xs) =
      some ⟨.mk nm.name nm.sign nm.scaling (x0 :: x1 :: xs), x0 :: x1 :: xs⟩ := by
  simp [mkAbstractionStepOfNeuronId, h]

/-- `step_without` when at least 2 nodes survive the discard set. -/
theorem step_without_keep {st : AbstractionStep} {D : List NeuronId} {x0 x1 : NeuronId}
    {xs : List NeuronId} (hr : st.nodes.filter (fun n => !(memN n D)) = x0 :: x1 :: xs)
    (hty : x0.type = st.new_name.type) :
    step_without st D = .ok (some ⟨.mk st.new_name.name st.new_name.sign
      st.new_name.scaling (x0 :: x1 :: xs), x0 :: x1 :: xs⟩) := by
  rw [step_without, hr, if_pos (by simp), mkOfNeuronId_eq hty.symm]

/-- `step_without` when at most one node survives: the step is dropped. -/
theorem step_without_drop {st : AbstractionStep} {D : List NeuronId}
    (h : ¬ (st.nodes.filter (fun n => !(memN n D))).length > 1) :
    step_without st D = .ok none := by
  rw [step_without, if_neg h]

/-- Inversion of a kept `step_without`: the surviving nodes are the filter of
the original nodes by the discard set. -/
theorem step_without_ok_nodes {st s : AbstractionStep} {D : List NeuronId}
    (h : step_without st D = .ok (some s)) :
    s.nodes = st.nodes.filter (fun n => !(memN n D)) := by
  rw [step_without] at h
  split at h
  · rcases hn : st.nodes.filter (fun n => !(memN n D)) with _ | ⟨z0, _ | ⟨z1, zs⟩⟩
    · rw [hn] at h
      simp [mkAbstractionStepOfNeuronId] at h
    · rw [hn] at h
      simp [mkAbstractionStepOfNeuronId] at h
    · rw [hn] at h
      rcases hm : mkAbstractionStepOfNeuronId st.new_name (z0 :: z1 :: zs) with _ | s'
      · rw [hm] at h
        simp at h
      · rw [hm] at h
        simp only [Except.ok.injEq, Option.some.injEq] at h
        simp only [mkAbstractionStepOfNeuronId] at hm
        split at hm
        · simp only [Option.some.injEq] at hm
          rw [← h, ← hm]
        · cases hm
  · simp at h

theorem filter_steps_cons_same_keep {a : Nat} {st s : AbstractionStep}
    {D : List NeuronId} {rest : List (Nat × AbstractionStep)}
    (hsw : step_without st D = .ok (some s)) :
    filter_abstraction_steps ((a, st) :: rest) D a =
      (filter_abstraction_steps rest D a).map (fun l => (a, s) :: l) := by
  simp [filter_abstraction_steps, hsw]

theorem filter_steps_cons_same_drop {a : Nat} {st : AbstractionStep}
    {D : List NeuronId} {rest : List (Nat × AbstractionStep)}
    (hsw : step_without st D = .ok none) :
    filter_abstraction_steps ((a, st) :: rest) D a =
      filter_abstraction_steps rest (st.new_name :: D) a := by
  simp [filter_abstraction_steps, hsw]

theorem filter_steps_cons_other {a b : Nat} {st : AbstractionStep}
    {D : List NeuronId} {rest : List (Nat × AbstractionStep)} (hb : ¬ b = a) :
    filter_abstraction_steps ((b, st) :: rest) D a =
      (filter_abstraction_steps rest D a).map (fun l => (b, st) :: l) := by
  simp [filter_abstraction_steps, hb]

/-- Composition of history filtering: filtering by `D1` and then filtering
the result by `D2` equals one filtering by a set `DF` equivalent (under
Python `NeuronId` equality) to the union of `D1` and `D2`, provided every
matching-axis entry's nodes share its abstract neuron's type (the
`AbstractionStep` constructor invariant, which also rules out the
`ValueError` of the rebuild).  The discard sets the three runs accumulate
stay in this union relation: a step dropped under `D1` is dropped under
`DF`, and a step kept under `D1` but dropped under `D2` adds a name that is
Python-equal to the one the `DF` run adds. -/
theorem filter_steps_comp (a : Nat) :
    ∀ (H : List (Nat × AbstractionStep)) (D1 D2 DF : List NeuronId),
      (∀ x, memN x DF = (memN x D1 || memN x D2)) →
      (∀ e ∈ H, e.1 = a → ∀ n ∈ e.2.nodes, n.type = e.2.new_name.type) →
      ∃ H1 HF, filter_abstraction_steps H D1 a = .ok H1 ∧
        filter_abstraction_steps H DF a = .ok HF ∧
        filter_abstraction_steps H1 D2 a = .ok HF := by
  intro H
  induction H with
  | nil => exact fun D1 D2 DF _ _ => ⟨[], [], rfl, rfl, rfl⟩
  | cons e0 rest ih =>
    intro D1 D2 DF hinv hty
    obtain ⟨b, st⟩ := e0
    have htyrest : ∀ e ∈ rest, e.1 = a → ∀ n ∈ e.2.nodes, n.type = e.2.new_name.type :=
      fun e he => hty e (List.mem_cons_of_mem _ he)
    by_cases hb : b = a
    · rw [hb]
      have htyst : ∀ n ∈ st.nodes, n.type = st.new_name.type :=
        hty (b, st) (List.mem_cons_self _ _) hb
      have hcomp : (st.nodes.filter (fun n => !(memN n D1))).filter
          (fun n => !(memN n D2)) = st.nodes.filter (fun n => !(memN n DF)) :=
        filter_filter_eq _ (fun x _ => by rw [hinv x, Bool.not_or])
      have hlenle : (st.nodes.filter (fun n => !(memN n DF))).length ≤
          (st.nodes.filter (fun n => !(memN n D1))).length := by
        rw [← hcomp]
        exact (List.filter_sublist _).length_le
      by_cases h1 : (st.nodes.filter (fun n => !(memN n D1))).length > 1
      · rcases hn1 : st.nodes.filter (fun n => !(memN n D1)) with _ | ⟨x0, _ | ⟨x1, xs⟩⟩
        · rw [hn1] at h1
          simp at h1
        · rw [hn1] at h1
          simp at h1
        · have hx0mem : x0 ∈ st.nodes := by
            have hx : x0 ∈ st.nodes.filter (fun n => !(memN n D1)) := by
              rw [hn1]
              exact List.mem_cons_self _ _
            exact (List.mem_filter.mp hx).1
          have hsw1 : step_without st D1 = .ok (some ⟨.mk st.new_name.name st.new_name.sign
              st.new_name.scaling (x0 :: x1 :: xs), x0 :: x1 :: xs⟩) :=
            step_without_keep hn1 (htyst x0 hx0mem)
          rw [hn1] at hcomp
          by_cases hF : (st.nodes.filter (fun n => !(memN n DF))).length > 1
          · rcases hnF : st.nodes.filter (fun n => !(memN n DF)) with _ | ⟨y0, _ | ⟨y1, ys⟩⟩
            · rw [hnF] at hF
              simp at hF
            · rw [hnF] at hF
              simp at hF
            · have hy0mem : y0 ∈ st.nodes := by
                have hy : y0 ∈ st.nodes.filter (fun n => !(memN n DF)) := by
                  rw [hnF]
                  exact List.mem_cons_self _ _
                exact (List.mem_filter.mp hy).1
              have hswF : step_without st DF = .ok (some ⟨.mk st.new_name.name
                  st.new_name.sign st.new_name.scaling (y0 :: y1 :: ys), y0 :: y1 :: ys⟩) :=
                step_without_keep hnF (htyst y0 hy0mem)
              have hsw2 : step_without
                  (⟨.mk st.new_name.name st.new_name.sign st.new_name.scaling
                    (x0 :: x1 :: xs), x0 :: x1 :: xs⟩ : AbstractionStep) D2 =
                  .ok (some ⟨.mk st.new_name.name st.new_name.sign st.new_name.scaling
                    (y0 :: y1 :: ys), y0 :: y1 :: ys⟩) := by
                have hr2 : (x0 :: x1 :: xs).filter (fun n => !(memN n D2)) =
                    y0 :: y1 :: ys := by
                  rw [hcomp, hnF]
                exact step_without_keep hr2 (htyst y0 hy0mem)
              obtain ⟨H1, HF, e1, eF, e2⟩ := ih D1 D2 DF hinv htyrest
              refine ⟨(a, ⟨.mk st.new_name.name st.new_name.sign st.new_name.scaling
                  (x0 :: x1 :: xs), x0 :: x1 :: xs⟩) :: H1,
                (a, ⟨.mk st.new_name.name st.new_name.sign st.new_name.scaling
                  (y0 :: y1 :: ys), y0 :: y1 :: ys⟩) :: HF, ?_, ?_, ?_⟩
              · rw [filter_steps_cons_same_keep hsw1, e1]
                rfl
              · rw [filter_steps_cons_same_keep hswF, eF]
                rfl
              · rw [filter_steps_cons_same_keep hsw2, e2]
                rfl
          · have hswF : step_without st DF = .ok none := step_without_drop hF
            have hsw2 : step_without
                (⟨.mk st.new_name.name st.new_name.sign st.new_name.scaling
                  (x0 :: x1 :: xs), x0 :: x1 :: xs⟩ : AbstractionStep) D2 = .ok none := by
              apply step_without_drop
              show ¬ ((x0 :: x1 :: xs).filter (fun n => !(memN n D2))).length > 1
              rw [hcomp]
              exact hF
            have hinv2 : ∀ x, memN x (st.new_name :: DF) =
                (memN x D1 || memN x ((NeuronId.mk st.new_name.name st.new_name.sign
                  st.new_name.scaling (x0 :: x1 :: xs)) :: D2)) := by
              intro x
              rw [memN_cons, memN_cons, hinv x, nidEq_mk_left]
              exact Bool.or_left_comm _ _ _
            obtain ⟨H1, HF, e1, eF, e2⟩ := ih D1
              ((NeuronId.mk st.new_name.name st.new_name.sign st.new_name.scaling
                (x0 :: x1 :: xs)) :: D2) (st.new_name :: DF) hinv2 htyrest
            refine ⟨(a, ⟨.mk st.new_name.name st.new_name.sign st.new_name.scaling
                (x0 :: x1 :: xs), x0 :: x1 :: xs⟩) :: H1, HF, ?_, ?_, ?_⟩
            · rw [filter_steps_cons_same_keep hsw1, e1]
              rfl
            · rw [filter_steps_cons_same_drop hswF]
              exact eF
            · rw [filter_steps_cons_same_drop hsw2]
              exact e2
      · have hsw1 : step_without st D1 = .ok none := step_without_drop h1
        have hF : ¬ (st.nodes.filter (fun n => !(memN n DF))).length > 1 :=
          fun hc => h1 (lt_of_lt_of_le hc hlenle)
        have hswF : step_without st DF = .ok none := step_without_drop hF
        have hinv2 : ∀ x, memN x (st.new_name :: DF) =
            (memN x (st.new_name :: D1) || memN x D2) := by
          intro x
          rw [memN_cons, memN_cons, hinv x]
          exact (Bool.or_assoc _ _ _).symm
        obtain ⟨H1, HF, e1, eF, e2⟩ := ih (st.new_name :: D1) D2 (st.new_name :: DF)
          hinv2 htyrest
        refine ⟨H1, HF, ?_, ?_, e2⟩
        · rw [filter_steps_cons_same_drop hsw1]
          exact e1
        · rw [filter_steps_cons_same_drop hswF]
          exact eF
    · obtain ⟨H1, HF, e1, eF, e2⟩ := ih D1 D2 DF hinv htyrest
      refine ⟨(b, st) :: H1, (b, st) :: HF, ?_, ?_, ?_⟩
      · rw [filter_steps_cons_other hb, e1]
        rfl
      · rw [filter_steps_cons_other hb, eF]
        rfl
      · rw [filter_steps_cons_other hb, e2]
        rfl

/-- Splitting a history filter around one entry that survives: entries
before the target entry that do not mention the discard set (and are
constructor-canonical: at least 2 nodes, provenance equal to the grouped
nodes, name typed from the head node) are kept verbatim and leave the
discard set unchanged, so the filter reaches the target entry with the
original discard set, keeps it in rebuilt form, and proceeds on the tail. -/
theorem filter_steps_split (a : Nat) (stA : AbstractionStep) (S : List NeuronId)
    {x0 x1 : NeuronId} {xs : List NeuronId}
    (hRs : stA.nodes.filter (fun n => !(memN n S)) = x0 :: x1 :: xs)
    (htyA : x0.type = stA.new_name.type) :
    ∀ pre post : List (Nat × AbstractionStep),
      (∀ e ∈ pre, e.1 = a → (∀ n ∈ e.2.nodes, memN n S = false) ∧
        1 < e.2.nodes.length ∧ e.2.new_name.original_neurons = e.2.nodes ∧
        e.2.new_name.type = (e.2.nodes.headD UNIT).type) →
      filter_abstraction_steps (pre ++ (a, stA) :: post) S a =
        (filter_abstraction_steps post S a).map
          (fun t => pre ++ (a, ⟨.mk stA.new_name.name stA.new_name.sign
            stA.new_name.scaling (x0 :: x1 :: xs), x0 :: x1 :: xs⟩) :: t) := by
  intro pre
  induction pre with
  | nil =>
    intro post _
    rw [List.nil_append, filter_steps_cons_same_keep (step_without_keep hRs htyA)]
    cases hpost : filter_abstraction_steps post S a <;> rfl
  | cons e0 pre' ih =>
    intro post hpre
    obtain ⟨b, st⟩ := e0
    have hpre' := fun e he => hpre e (List.mem_cons_of_mem _ he)
    rw [List.cons_append]
    by_cases hb : b = a
    · rw [hb]
      obtain ⟨hdisj, hlen, hprov, htyh⟩ := hpre (b, st) (List.mem_cons_self _ _) hb
      have hfeq : st.nodes.filter (fun n => !(memN n S)) = st.nodes :=
        List.filter_eq_self.mpr (fun n hn => by rw [hdisj n hn]; rfl)
      rcases hnn : st.nodes with _ | ⟨y0, _ | ⟨y1, ys⟩⟩
      · rw [hnn] at hlen
        simp at hlen
      · rw [hnn] at hlen
        simp at hlen
      · have hkeep := @step_without_keep st S y0 y1 ys
          (by rw [hfeq, hnn]) (by rw [htyh, hnn, List.headD_cons])
        have hstep_eq : (⟨.mk st.new_name.name st.new_name.sign st.new_name.scaling
            (y0 :: y1 :: ys), y0 :: y1 :: ys⟩ : AbstractionStep) = st := by
          have h1 : NeuronId.mk st.new_name.name st.new_name.sign st.new_name.scaling
              (y0 :: y1 :: ys) = st.new_name := by
            rw [← hnn, ← hprov]
            exact nid_eta _
          rw [h1, ← hnn]
        rw [hstep_eq] at hkeep
        rw [filter_steps_cons_same_keep hkeep, ih post hpre']
        cases hpost : filter_abstraction_steps post S a <;> rfl
    · rw [filter_steps_cons_other hb, ih post hpre']
      cases hpost : filter_abstraction_steps post S a <;> rfl

/-- Any entrywise property that survives the `step_without` rebuild is
carried from a history to its filtered history. -/
theorem filter_steps_entries (a : Nat) (Φ : Nat × AbstractionStep → Prop)
    (hkeep : ∀ st : AbstractionStep, ∀ D : List NeuronId, ∀ s : AbstractionStep,
      Φ (a, st) → step_without st D = .ok (some s) → Φ (a, s)) :
    ∀ (H : List (Nat × AbstractionStep)) (D : List NeuronId)
      (T : List (Nat × AbstractionStep)),
      (∀ e ∈ H, Φ e) → filter_abstraction_steps H D a = .ok T → ∀ e ∈ T, Φ e := by
  intro H
  induction H with
  | nil =>
    intro D T _ hT
    simp only [filter_abstraction_steps, Except.ok.injEq] at hT
    subst hT
    intro e he
    cases he
  | cons e0 rest ih =>
    intro D T hH hT
    obtain ⟨b, st⟩ := e0
    have hHrest := fun e he => hH e (List.mem_cons_of_mem _ he)
    by_cases hb : b = a
    · rw [hb] at hT
      cases hsw : step_without st D with
      | error f =>
        rw [filter_abstraction_steps, if_pos rfl, hsw] at hT
        cases hT
      | ok os =>
        cases os with
        | none =>
          rw [filter_steps_cons_same_drop hsw] at hT
          exact ih _ _ hHrest hT
        | some s =>
          rw [filter_steps_cons_same_keep hsw] at hT
          cases hrest : filter_abstraction_steps rest D a with
          | error f =>
            rw [hrest] at hT
            cases hT
          | ok T' =>
            rw [hrest] at hT
            simp only [Except.map, Except.ok.injEq] at hT
            subst hT
            intro e he
            rcases List.mem_cons.mp he with rfl | he'
            · have hΦ : Φ (a, st) := by
                rw [← hb]
                exact hH (b, st) (List.mem_cons_self _ _)
              exact hkeep st D s hΦ hsw
            · exact ih _ _ hHrest hrest e he'
    · rw [filter_steps_cons_other hb] at hT
      cases hrest : filter_abstraction_steps rest D a with
      | error f =>
        rw [hrest] at hT
        cases hT
      | ok T' =>
        rw [hrest] at hT
        simp only [Except.map, Except.ok.injEq] at hT
        subst hT
        intro e he
        rcases List.mem_cons.mp he with rfl | he'
        · exact hH (b, st) (List.mem_cons_self _ _)
        · exact ih _ _ hHrest hrest e he'

/-- Replay of a weights-table history from an origin table: the exact fold
`refine_layer` performs, and the state every reachable weights table is in
(each `_abstract_weights_as_*` call appends the entry it realizes). -/
def replayTable (orig : BareTable) (H : List (Nat × AbstractionStep)) : WeightsTable :=
  H.foldl replayStep (freshTable orig)

/-- Replay of a bias-table history from an origin table (the bias replay
fold of `refine_layer`). -/
def replayBiasTable (orig : BareTable) (H : List (Nat × AbstractionStep)) : WeightsTable :=
  H.foldl (fun t e => abstract_biases t e.2) (freshTable orig)

theorem replayStep_steps (W : WeightsTable) (e : Nat × AbstractionStep)
    (he : e.1 = 0 ∨ e.1 = 1) :
    (replayStep W e).abstraction_steps = W.abstraction_steps ++ [e] := by
  rcases he with h0 | h1
  · rw [replayStep, if_pos h0]
    show W.abstraction_steps ++ [(0, e.2)] = _
    rw [← h0]
  · rw [replayStep, if_neg (by rw [h1]; exact one_ne_zero)]
    show W.abstraction_steps ++ [(1, e.2)] = _
    rw [← h1]

theorem replayTable_steps_aux :
    ∀ (H : List (Nat × AbstractionStep)) (W : WeightsTable),
      (∀ e ∈ H, e.1 = 0 ∨ e.1 = 1) →
      (H.foldl replayStep W).abstraction_steps = W.abstraction_steps ++ H := by
  intro H
  induction H with
  | nil => intro W _; simp
  | cons e rest ih =>
    intro W hax
    rw [List.foldl_cons, ih _ (fun x hx => hax x (List.mem_cons_of_mem _ hx)),
      replayStep_steps W e (hax e (List.mem_cons_self _ _))]
    simp

/-- A replayed table records exactly the replayed history. -/
theorem replayTable_steps (orig : BareTable) (H : List (Nat × AbstractionStep))
    (hax : ∀ e ∈ H, e.1 = 0 ∨ e.1 = 1) :
    (replayTable orig H).abstraction_steps = H := by
  rw [replayTable, replayTable_steps_aux H (freshTable orig) hax]
  rfl

theorem replayBiasTable_steps_aux :
    ∀ (H : List (Nat × AbstractionStep)) (W : WeightsTable),
      (∀ e ∈ H, e.1 = 1) →
      (H.foldl (fun t e => abstract_biases t e.2) W).abstraction_steps =
        W.abstraction_steps ++ H := by
  intro H
  induction H with
  | nil => intro W _; simp
  | cons e rest ih =>
    intro W hax
    rw [List.foldl_cons, ih _ (fun x hx => hax x (List.mem_cons_of_mem _ hx))]
    have h1 : (abstract_biases W e.2).abstraction_steps =
        W.abstraction_steps ++ [e] := by
      show W.abstraction_steps ++ [(1, e.2)] = _
      rw [← hax e (List.mem_cons_self _ _)]
    rw [h1]
    simp

/-- A replayed bias table records exactly the replayed history. -/
theorem replayBiasTable_steps (orig : BareTable) (H : List (Nat × AbstractionStep))
    (hax : ∀ e ∈ H, e.1 = 1) :
    (replayBiasTable orig H).abstraction_steps = H := by
  rw [replayBiasTable, replayBiasTable_steps_aux H (freshTable orig) hax]
  rfl

theorem replayStep_orig (W : WeightsTable) (e : Nat × AbstractionStep) :
    (replayStep W e).orig_table = some (W.orig_table.getD W.tbl) := by
  rw [replayStep]
  split <;> rfl

theorem replayTable_orig_aux :
    ∀ (H : List (Nat × AbstractionStep)) (W : WeightsTable) (o : BareTable),
      W.orig_table = some o → (H.foldl replayStep W).orig_table = some o := by
  intro H
  induction H with
  | nil => intro W o h; exact h
  | cons e rest ih =>
    intro W o h
    rw [List.foldl_cons]
    exact ih _ o (by rw [replayStep_orig, h]; rfl)

/-- A table replayed through a non-empty history keeps the origin it was
replayed from. -/
theorem replayTable_orig_ne (orig : BareTable) (H : List (Nat × AbstractionStep))
    (h : H ≠ []) : (replayTable orig H).orig_table = some orig := by
  rcases H with _ | ⟨e, H'⟩
  · exact absurd rfl h
  · rw [replayTable, List.foldl_cons]
    exact replayTable_orig_aux H' _ orig (by rw [replayStep_orig]; rfl)

theorem replayBiasTable_orig_aux :
    ∀ (H : List (Nat × AbstractionStep)) (W : WeightsTable) (o : BareTable),
      W.orig_table = some o →
      (H.foldl (fun t e => abstract_biases t e.2) W).orig_table = some o := by
  intro H
  induction H with
  | nil => intro W o h; exact h
  | cons e rest ih =>
    intro W o h
    rw [List.foldl_cons]
    refine ih _ o ?_
    show some (W.orig_table.getD W.tbl) = some o
    rw [h]
    rfl

/-- A bias table replayed through a non-empty history keeps its origin. -/
theorem replayBiasTable_orig_ne (orig : BareTable) (H : List (Nat × AbstractionStep))
    (h : H ≠ []) : (replayBiasTable orig H).orig_table = some orig := by
  rcases H with _ | ⟨e, H'⟩
  · exact absurd rfl h
  · rw [replayBiasTable, List.foldl_cons]
    refine replayBiasTable_orig_aux H' _ orig ?_
    show some ((freshTable orig).orig_table.getD (freshTable orig).tbl) = some orig
    rfl

/-- The row labels of a replayed table as a fold over the history: axis 0
entries rebuild the row axis exactly as `_abstract_weights_as_outgoing`
does, axis 1 entries leave it unchanged. -/
def srcsAfter (s0 : List NeuronId) (H : List (Nat × AbstractionStep)) : List NeuronId :=
  H.foldl (fun s e =>
    if e.1 = 0 then sortNids ((s.filter (fun q => !(memN q e.2.nodes))) ++ [e.2.new_name])
    else s) s0

theorem srcsAfter_cons (s0 : List NeuronId) (e : Nat × AbstractionStep)
    (H : List (Nat × AbstractionStep)) :
    srcsAfter s0 (e :: H) =
      srcsAfter (if e.1 = 0 then sortNids ((s0.filter (fun q => !(memN q e.2.nodes))) ++
        [e.2.new_name]) else s0) H := rfl

theorem replayStep_srcs (W : WeightsTable) (e : Nat × AbstractionStep) :
    (replayStep W e).tbl.srcs =
      (if e.1 = 0 then sortNids ((W.tbl.srcs.filter (fun q => !(memN q e.2.nodes))) ++
        [e.2.new_name]) else W.tbl.srcs) := by
  by_cases h : e.1 = 0
  · rw [replayStep, if_pos h, if_pos h]
    rfl
  · rw [replayStep, if_neg h, if_neg h]
    rfl

theorem replayTable_srcs_aux :
    ∀ (H : List (Nat × AbstractionStep)) (W : WeightsTable),
      (H.foldl replayStep W).tbl.srcs = srcsAfter W.tbl.srcs H := by
  intro H
  induction H with
  | nil => intro W; rfl
  | cons e rest ih =>
    intro W
    rw [List.foldl_cons, ih, replayStep_srcs, srcsAfter_cons]

/-- The rows of a replayed table are the `srcsAfter` fold of the origin's
rows through the history. -/
theorem replayTable_srcs (orig : BareTable) (H : List (Nat × AbstractionStep)) :
    (replayTable orig H).tbl.srcs = srcsAfter orig.srcs H :=
  replayTable_srcs_aux H (freshTable orig)

/-- A row label survives the replay of a history none of whose axis 0
entries consume it. -/
theorem srcsAfter_mem (x : NeuronId) :
    ∀ (H : List (Nat × AbstractionStep)) (s0 : List NeuronId),
      x ∈ s0 → (∀ e ∈ H, e.1 = 0 → memN x e.2.nodes = false) →
      x ∈ srcsAfter s0 H := by
  intro H
  induction H with
  | nil => intro s0 hx _; exact hx
  | cons e rest ih =>
    intro s0 hx hH
    rw [srcsAfter_cons]
    by_cases h0 : e.1 = 0
    · rw [if_pos h0]
      refine ih _ ?_ (fun e' he' => hH e' (List.mem_cons_of_mem _ he'))
      rw [mem_sortNids]
      refine List.mem_append_left _ (List.mem_filter.mpr ⟨hx, ?_⟩)
      rw [hH e (List.mem_cons_self _ _) h0]
      rfl
    · rw [if_neg h0]
      exact ih s0 hx (fun e' he' => hH e' (List.mem_cons_of_mem _ he'))

theorem find?_isSome_of_mem {p : NeuronId → Bool} {l : List NeuronId} {x : NeuronId}
    (hx : x ∈ l) (hp : p x = true) : ∃ t, l.find? p = some t := by
  induction l with
  | nil => cases hx
  | cons y ys ih =>
    cases hy : p y with
    | true => exact ⟨y, List.find?_cons_of_pos _ hy⟩
    | false =>
      rcases List.mem_cons.mp hx with rfl | hx'
      · rw [hp] at hy
        cases hy
      · obtain ⟨t, ht⟩ := ih hx'
        exact ⟨t, by rw [List.find?_cons_of_neg _ (by simp [hy]), ht]⟩

theorem srcsAfter_append (s0 : List NeuronId) (H1 H2 : List (Nat × AbstractionStep)) :
    srcsAfter s0 (H1 ++ H2) = srcsAfter (srcsAfter s0 H1) H2 := by
  simp only [srcsAfter, List.foldl_append]

/-- C7 (amended): for an abstract neuron of a layer in any reachable state —
the three tables are replays of arbitrary abstraction histories with any
number of prior and later steps on either axis around the step `stA` that
produced the neuron — refining out a non-empty subset `S` of its provenance
`P = stA.nodes` with `refine_layer` and then refining the remaining abstract
neuron with the remaining parts `P ∖ S` yields exactly the same three tables
as one full refinement (`parts=None`) of the neuron, provided the remainder
`P ∖ S` keeps at least 2 neurons.  (When `P ∖ S` is a singleton the partial
refinement already dissolves the abstract neuron and the second
`refine_layer` fails; see the counterexample.)  The remaining hypotheses are
invariants of every history the code builds: recorded axes are 0/1 (only 1
for biases), each step's grouped nodes share its abstract neuron's type and
are stored as the new name's provenance, steps recorded before `stA` group
neurons disjoint from the provenance subset `S` being refined (those
neurons were consumed before `stA`'s group existed), later steps on the row
axis do not consume the abstract neuron (it is still a row of the table),
and the abstract neuron is the stored row label the target lookup finds. -/
theorem partial_then_rest_refine_eq_full_refine
    (iOrig oOrig bOrig : BareTable)
    (ipre ipost opre opost bpre bpost : List (Nat × AbstractionStep))
    (stA : AbstractionStep) (S : List NeuronId)
    (haxi : ∀ e ∈ ipre ++ (1, stA) :: ipost, e.1 = 0 ∨ e.1 = 1)
    (haxo : ∀ e ∈ opre ++ (0, stA) :: opost, e.1 = 0 ∨ e.1 = 1)
    (haxb : ∀ e ∈ bpre ++ (1, stA) :: bpost, e.1 = 1)
    (htyi : ∀ e ∈ ipre ++ (1, stA) :: ipost, e.1 = 1 →
      ∀ n ∈ e.2.nodes, n.type = e.2.new_name.type)
    (htyo : ∀ e ∈ opre ++ (0, stA) :: opost, e.1 = 0 →
      ∀ n ∈ e.2.nodes, n.type = e.2.new_name.type)
    (htyb : ∀ e ∈ bpre ++ (1, stA) :: bpost, e.1 = 1 →
      ∀ n ∈ e.2.nodes, n.type = e.2.new_name.type)
    (hprei : ∀ e ∈ ipre, e.1 = 1 → (∀ n ∈ e.2.nodes, memN n S = false) ∧
      1 < e.2.nodes.length ∧ e.2.new_name.original_neurons = e.2.nodes ∧
      e.2.new_name.type = (e.2.nodes.headD UNIT).type)
    (hpreo : ∀ e ∈ opre, e.1 = 0 → (∀ n ∈ e.2.nodes, memN n S = false) ∧
      1 < e.2.nodes.length ∧ e.2.new_name.original_neurons = e.2.nodes ∧
      e.2.new_name.type = (e.2.nodes.headD UNIT).type)
    (hpreb : ∀ e ∈ bpre, e.1 = 1 → (∀ n ∈ e.2.nodes, memN n S = false) ∧
      1 < e.2.nodes.length ∧ e.2.new_name.original_neurons = e.2.nodes ∧
      e.2.new_name.type = (e.2.nodes.headD UNIT).type)
    (hposto : ∀ e ∈ opost, e.1 = 0 → memN stA.new_name e.2.nodes = false)
    (hA0 : stA.new_name.original_neurons = stA.nodes)
    (hS : ∀ s ∈ S, memN s stA.nodes = true)
    (hSne : S ≠ [])
    (hR : 1 < (stA.nodes.filter (fun n => !(memN n S))).length)
    (hfind : (replayTable oOrig (opre ++ (0, stA) :: opost)).tbl.srcs.find?
      (fun n => nidEq n stA.new_name) = some stA.new_name) :
    ∃ i2 o2 b2 res,
      refine_layer (replayTable iOrig (ipre ++ (1, stA) :: ipost))
        (replayTable oOrig (opre ++ (0, stA) :: opost))
        (replayBiasTable bOrig (bpre ++ (1, stA) :: bpost))
        ⟨stA.new_name, some S⟩ = some (i2, o2, b2) ∧
      refine_layer i2 o2 b2
        ⟨.mk stA.new_name.name stA.new_name.sign stA.new_name.scaling
            (stA.nodes.filter (fun n => !(memN n S))),
          some (stA.nodes.filter (fun n => !(memN n S)))⟩ = some res ∧
      refine_layer (replayTable iOrig (ipre ++ (1, stA) :: ipost))
        (replayTable oOrig (opre ++ (0, stA) :: opost))
        (replayBiasTable bOrig (bpre ++ (1, stA) :: bpost))
        ⟨stA.new_name, none⟩ = some res := by
  rcases S with _ | ⟨s0, S'⟩
  · exact absurd rfl hSne
  rcases hRs : stA.nodes.filter (fun n => !(memN n (s0 :: S'))) with _ | ⟨x0, _ | ⟨x1, xs⟩⟩
  · rw [hRs] at hR
    simp at hR
  · rw [hRs] at hR
    simp at hR
  have htyA : ∀ n ∈ stA.nodes, n.type = stA.new_name.type :=
    htyi (1, stA) (List.mem_append_right _ (List.mem_cons_self _ _)) rfl
  have hx0mem : x0 ∈ stA.nodes := by
    have hx : x0 ∈ stA.nodes.filter (fun n => !(memN n (s0 :: S'))) := by
      rw [hRs]
      exact List.mem_cons_self _ _
    exact (List.mem_filter.mp hx).1
  have htyx0 : x0.type = stA.new_name.type := htyA x0 hx0mem
  have hinv : ∀ x, memN x stA.nodes =
      (memN x (s0 :: S') || memN x (x0 :: x1 :: xs)) := by
    intro x
    cases hxP : memN x stA.nodes with
    | true =>
      obtain ⟨p, hpP, hpx⟩ := List.any_eq_true.mp hxP
      cases hpS : memN p (s0 :: S') with
      | true =>
        obtain ⟨t, htS, htp⟩ := List.any_eq_true.mp hpS
        have hxS : memN x (s0 :: S') = true :=
          List.any_eq_true.mpr ⟨t, htS, nidEq_trans htp hpx⟩
        rw [hxS]
        rfl
      | false =>
        have hpR : p ∈ x0 :: x1 :: xs := by
          rw [← hRs]
          exact List.mem_filter.mpr ⟨hpP, by rw [hpS]; rfl⟩
        have hxR : memN x (x0 :: x1 :: xs) = true :=
          List.any_eq_true.mpr ⟨p, hpR, hpx⟩
        rw [hxR, Bool.or_true]
    | false =>
      have h1 : memN x (s0 :: S') = false := by
        cases hm : memN x (s0 :: S') with
        | false => rfl
        | true =>
          obtain ⟨t, htS, htx⟩ := List.any_eq_true.mp hm
          obtain ⟨p, hpP, hpt⟩ := List.any_eq_true.mp (hS t htS)
          have hc : memN x stA.nodes = true :=
            List.any_eq_true.mpr ⟨p, hpP, nidEq_trans hpt htx⟩
          rw [hxP] at hc
          cases hc
      have h2 : memN x (x0 :: x1 :: xs) = false := by
        rw [← hRs]
        exact memN_filter_false hxP
      rw [h1, h2]
      rfl
  obtain ⟨H1i, HFi, e1i, eFi, e2i⟩ := filter_steps_comp 1 (ipre ++ (1, stA) :: ipost)
    (s0 :: S') (x0 :: x1 :: xs) stA.nodes hinv htyi
  obtain ⟨H1o, HFo, e1o, eFo, e2o⟩ := filter_steps_comp 0 (opre ++ (0, stA) :: opost)
    (s0 :: S') (x0 :: x1 :: xs) stA.nodes hinv htyo
  obtain ⟨H1b, HFb, e1b, eFb, e2b⟩ := filter_steps_comp 1 (bpre ++ (1, stA) :: bpost)
    (s0 :: S') (x0 :: x1 :: xs) stA.nodes hinv htyb
  have hspliti := filter_steps_split 1 stA (s0 :: S') hRs htyx0 ipre ipost hprei
  have hsplito := filter_steps_split 0 stA (s0 :: S') hRs htyx0 opre opost hpreo
  have hsplitb := filter_steps_split 1 stA (s0 :: S') hRs htyx0 bpre bpost hpreb
  have hshapei : ∃ Ti, filter_abstraction_steps ipost (s0 :: S') 1 = .ok Ti ∧
      H1i = ipre ++ (1, ⟨.mk stA.new_name.name stA.new_name.sign stA.new_name.scaling
        (x0 :: x1 :: xs), x0 :: x1 :: xs⟩) :: Ti := by
    rw [hspliti] at e1i
    cases hpost : filter_abstraction_steps ipost (s0 :: S') 1 with
    | error f =>
      rw [hpost] at e1i
      simp [Except.map] at e1i
    | ok Ti =>
      rw [hpost] at e1i
      simp only [Except.map, Except.ok.injEq] at e1i
      exact ⟨Ti, rfl, e1i.symm⟩
  have hshapeo : ∃ To, filter_abstraction_steps opost (s0 :: S') 0 = .ok To ∧
      H1o = opre ++ (0, ⟨.mk stA.new_name.name stA.new_name.sign stA.new_name.scaling
        (x0 :: x1 :: xs), x0 :: x1 :: xs⟩) :: To := by
    rw [hsplito] at e1o
    cases hpost : filter_abstraction_steps opost (s0 :: S') 0 with
    | error f =>
      rw [hpost] at e1o
      simp [Except.map] at e1o
    | ok To =>
      rw [hpost] at e1o
      simp only [Except.map, Except.ok.injEq] at e1o
      exact ⟨To, rfl, e1o.symm⟩
  have hshapeb : ∃ Tb, filter_abstraction_steps bpost (s0 :: S') 1 = .ok Tb ∧
      H1b = bpre ++ (1, ⟨.mk stA.new_name.name stA.new_name.sign stA.new_name.scaling
        (x0 :: x1 :: xs), x0 :: x1 :: xs⟩) :: Tb := by
    rw [hsplitb] at e1b
    cases hpost : filter_abstraction_steps bpost (s0 :: S') 1 with
    | error f =>
      rw [hpost] at e1b
      simp [Except.map] at e1b
    | ok Tb =>
      rw [hpost] at e1b
      simp only [Except.map, Except.ok.injEq] at e1b
      exact ⟨Tb, rfl, e1b.symm⟩
  obtain ⟨Ti, hTi, hH1i⟩ := hshapei
  obtain ⟨To, hTo, hH1o⟩ := hshapeo
  obtain ⟨Tb, hTb, hH1b⟩ := hshapeb
  have hH1i_ne : H1i ≠ [] := by
    rw [hH1i]
    simp
  have hH1o_ne : H1o ≠ [] := by
    rw [hH1o]
    simp
  have hH1b_ne : H1b ≠ [] := by
    rw [hH1b]
    simp
  have haxH1i : ∀ e ∈ H1i, e.1 = 0 ∨ e.1 = 1 :=
    filter_steps_entries 1 (fun e => e.1 = 0 ∨ e.1 = 1) (fun _ _ _ h _ => h)
      (ipre ++ (1, stA) :: ipost) (s0 :: S') H1i haxi e1i
  have haxH1o : ∀ e ∈ H1o, e.1 = 0 ∨ e.1 = 1 :=
    filter_steps_entries 0 (fun e => e.1 = 0 ∨ e.1 = 1) (fun _ _ _ h _ => h)
      (opre ++ (0, stA) :: opost) (s0 :: S') H1o haxo e1o
  have haxH1b : ∀ e ∈ H1b, e.1 = 1 :=
    filter_steps_entries 1 (fun e => e.1 = 1) (fun _ _ _ h _ => h)
      (bpre ++ (1, stA) :: bpost) (s0 :: S') H1b haxb e1b
  have hstepsI : (replayTable iOrig (ipre ++ (1, stA) :: ipost)).abstraction_steps =
      ipre ++ (1, stA) :: ipost := replayTable_steps _ _ haxi
  have hstepsO : (replayTable oOrig (opre ++ (0, stA) :: opost)).abstraction_steps =
      opre ++ (0, stA) :: opost := replayTable_steps _ _ haxo
  have hstepsB : (replayBiasTable bOrig (bpre ++ (1, stA) :: bpost)).abstraction_steps =
      bpre ++ (1, stA) :: bpost := replayBiasTable_steps _ _ haxb
  have horigI : (replayTable iOrig (ipre ++ (1, stA) :: ipost)).orig_table = some iOrig :=
    replayTable_orig_ne _ _ (by simp)
  have horigO : (replayTable oOrig (opre ++ (0, stA) :: opost)).orig_table = some oOrig :=
    replayTable_orig_ne _ _ (by simp)
  have horigB : (replayBiasTable bOrig (bpre ++ (1, stA) :: bpost)).orig_table =
      some bOrig := replayBiasTable_orig_ne _ _ (by simp)
  have hstepsI2 : (replayTable iOrig H1i).abstraction_steps = H1i :=
    replayTable_steps _ _ haxH1i
  have hstepsO2 : (replayTable oOrig H1o).abstraction_steps = H1o :=
    replayTable_steps _ _ haxH1o
  have hstepsB2 : (replayBiasTable bOrig H1b).abstraction_steps = H1b :=
    replayBiasTable_steps _ _ haxH1b
  have horigI2 : (replayTable iOrig H1i).orig_table = some iOrig :=
    replayTable_orig_ne _ _ hH1i_ne
  have horigO2 : (replayTable oOrig H1o).orig_table = some oOrig :=
    replayTable_orig_ne _ _ hH1o_ne
  have horigB2 : (replayBiasTable bOrig H1b).orig_table = some bOrig :=
    replayBiasTable_orig_ne _ _ hH1b_ne
  have hsurv : ∀ e ∈ To, e.1 = 0 → memN stA.new_name e.2.nodes = false := by
    refine filter_steps_entries 0
      (fun e => e.1 = 0 → memN stA.new_name e.2.nodes = false) ?_ opost (s0 :: S')
      To hposto hTo
    intro st D s hst hsw h0
    rw [step_without_ok_nodes hsw]
    exact memN_filter_false (hst rfl)
  have hA'eq : nidEq (NeuronId.mk stA.new_name.name stA.new_name.sign
      stA.new_name.scaling (x0 :: x1 :: xs)) stA.new_name = true := by
    rw [nidEq_mk_left]
    exact nidEq_refl _
  have hmemA : (NeuronId.mk stA.new_name.name stA.new_name.sign stA.new_name.scaling
      (x0 :: x1 :: xs)) ∈ (replayTable oOrig H1o).tbl.srcs := by
    rw [replayTable_srcs, hH1o, srcsAfter_append, srcsAfter_cons]
    dsimp only
    rw [if_pos rfl]
    apply srcsAfter_mem
    · rw [mem_sortNids]
      exact List.mem_append_right _ (List.mem_singleton.mpr rfl)
    · intro e he h0
      rw [memN_congr hA'eq e.2.nodes]
      exact hsurv e he h0
  obtain ⟨t2, hfind2⟩ := @find?_isSome_of_mem
    (fun n => nidEq n (NeuronId.mk stA.new_name.name stA.new_name.sign
      stA.new_name.scaling (x0 :: x1 :: xs)))
    ((replayTable oOrig H1o).tbl.srcs)
    (NeuronId.mk stA.new_name.name stA.new_name.sign stA.new_name.scaling
      (x0 :: x1 :: xs)) hmemA (nidEq_refl _)
  refine ⟨replayTable iOrig H1i, replayTable oOrig H1o, replayBiasTable bOrig H1b,
    (replayTable iOrig HFi, replayTable oOrig HFo, replayBiasTable bOrig HFb),
    ?_, ?_, ?_⟩
  · rw [refine_layer]
    dsimp only
    rw [hfind]
    simp only [Option.bind_eq_bind, Option.some_bind]
    rw [hstepsI, e1i]
    simp only [Except.toOption, Option.bind_eq_bind, Option.some_bind]
    rw [hstepsO, e1o]
    simp only [Except.toOption, Option.bind_eq_bind, Option.some_bind]
    rw [hstepsB, e1b]
    simp only [Except.toOption, Option.bind_eq_bind, Option.some_bind]
    rw [horigI, horigO, horigB]
    simp only [Option.bind_eq_bind, Option.some_bind]
    rfl
  · rw [refine_layer]
    dsimp only
    rw [hfind2]
    simp only [Option.bind_eq_bind, Option.some_bind]
    rw [hstepsI2, e2i]
    simp only [Except.toOption, Option.bind_eq_bind, Option.some_bind]
    rw [hstepsO2, e2o]
    simp only [Except.toOption, Option.bind_eq_bind, Option.some_bind]
    rw [hstepsB2, e2b]
    simp only [Except.toOption, Option.bind_eq_bind, Option.some_bind]
    rw [horigI2, horigO2, horigB2]
    simp only [Option.bind_eq_bind, Option.some_bind]
    rfl
  · rw [refine_layer]
    dsimp only
    rw [hfind]
    simp only [Option.bind_eq_bind, Option.some_bind]
    rw [hA0, hstepsI, eFi]
    simp only [Except.toOption, Option.bind_eq_bind, Option.some_bind]
    rw [hstepsO, eFo]
    simp only [Except.toOption, Option.bind_eq_bind, Option.some_bind]
    rw [hstepsB, eFb]
    simp only [Except.toOption, Option.bind_eq_bind, Option.some_bind]
    rw [horigI, horigO, horigB]
    simp only [Option.bind_eq_bind, Option.some_bind]
    rfl

/-- Witness for C7 (amended): the three-neuron abstraction replayed as a
one-entry history, refining `S = {h1}` and then the remaining parts
`{h2, h3}` equals the one full refinement. -/
theorem partial_then_rest_refine_eq_full_refine_witness :
    (∀ s ∈ [nH1], memN s exStep3.nodes = true) ∧
    ([nH1] ≠ ([] : List NeuronId)) ∧
    1 < (exStep3.nodes.filter (fun n => !(memN n [nH1]))).length ∧
    (replayTable exOut3.tbl [(0, exStep3)]).tbl.srcs.find?
      (fun n => nidEq n exStep3.new_name) = some exStep3.new_name ∧
    (∃ i2 o2 b2 res,
      refine_layer (replayTable exInc3.tbl [(1, exStep3)])
        (replayTable exOut3.tbl [(0, exStep3)])
        (replayBiasTable exBias3.tbl [(1, exStep3)])
        ⟨exStep3.new_name, some [nH1]⟩ = some (i2, o2, b2) ∧
      refine_layer i2 o2 b2
        ⟨.mk exStep3.new_name.name exStep3.new_name.sign exStep3.new_name.scaling
            (exStep3.nodes.filter (fun n => !(memN n [nH1]))),
          some (exStep3.nodes.filter (fun n => !(memN n [nH1])))⟩ = some res ∧
      refine_layer (replayTable exInc3.tbl [(1, exStep3)])
        (replayTable exOut3.tbl [(0, exStep3)])
        (replayBiasTable exBias3.tbl [(1, exStep3)])
        ⟨exStep3.new_name, none⟩ = some res) :=
  ⟨by
     intro t ht
     rw [List.mem_singleton] at ht
     subst ht
     rfl,
   List.cons_ne_nil _ _, by decide, rfl,
   partial_then_rest_refine_eq_full_refine exInc3.tbl exOut3.tbl exBias3.tbl
     [] [] [] [] [] [] exStep3 [nH1]
     (by
       intro e he
       rw [List.nil_append, List.mem_singleton] at he
       subst he
       exact Or.inr rfl)
     (by
       intro e he
       rw [List.nil_append, List.mem_singleton] at he
       subst he
       exact Or.inl rfl)
     (by
       intro e he
       rw [List.nil_append, List.mem_singleton] at he
       subst he
       rfl)
     (by
       intro e he hax
       rw [List.nil_append, List.mem_singleton] at he
       subst he
       intro n hn
       simp only [exStep3, List.mem_cons, List.not_mem_nil, or_false] at hn
       rcases hn with rfl | rfl | rfl <;> rfl)
     (by
       intro e he hax
       rw [List.nil_append, List.mem_singleton] at he
       subst he
       intro n hn
       simp only [exStep3, List.mem_cons, List.not_mem_nil, or_false] at hn
       rcases hn with rfl | rfl | rfl <;> rfl)
     (by
       intro e he hax
       rw [List.nil_append, List.mem_singleton] at he
       subst he
       intro n hn
       simp only [exStep3, List.mem_cons, List.not_mem_nil, or_false] at hn
       rcases hn with rfl | rfl | rfl <;> rfl)
     (by
       intro e he
       exact absurd he (List.not_mem_nil e))
     (by
       intro e he
       exact absurd he (List.not_mem_nil e))
     (by
       intro e he
       exact absurd he (List.not_mem_nil e))
     (by
       intro e he
       exact absurd he (List.not_mem_nil e))
     rfl
     (by
       intro t ht
       rw [List.mem_singleton] at ht
       subst ht
       rfl)
     (List.cons_ne_nil _ _) (by decide) rfl⟩

/-- Per-neuron interval bounds, the `{"min": .., "max": ..}` dictionaries of
src/redesign/bounds_calculation (`NeuronBounds` values).  The fields are
named `bmin`/`bmax` for the Python keys "min"/"max". -/
structure Bounds where
  bmin : ℚ
  bmax : ℚ

/-- A bounds snapshot assigning an interval to every neuron.  The Python code
uses a dict and raises `KeyError` on a missing neuron; a total function
models a snapshot covering the property's constrained neurons. -/
def NeuronBounds : Type := NeuronId → Bounds

/-- One bound constraint: `LowerBound(nid, lower)` or `UpperBound(nid, upper)`
(src/redesign/marabou_properties/basic_property.py). -/
inductive BasicConstraint where
  | lower (nid : NeuronId) (lo : ℚ)
  | upper (nid : NeuronId) (up : ℚ)

/-- The constrained neuron of a constraint (`constraint.nid`). -/
def BasicConstraint.nid : BasicConstraint → NeuronId
  | .lower n _ => n
  | .upper n _ => n

/-- A basic property: input bound constraints and output bound constraints
(src/redesign/marabou_properties/basic_property.py, `BasicProperty`). -/
structure BasicProperty where
  input_constraints : List BasicConstraint
  output_constraints : List BasicConstraint

/-- Bound tightening of a property from before/after bound snapshots
(src/redesign/marabou_properties/update_property.py, `update_property`): for
every output constraint the diff `after[nid].min − before[nid].max` is
computed, a lower bound moves to `max(lower + diff, lower)` and an upper
bound to `min(upper + diff, upper)`; input constraints are kept unchanged
(`dataclasses.replace` swaps only `output_constraints`). -/
def update_property (property : BasicProperty)
    (bounds_before bounds_after : NeuronBounds) : BasicProperty :=
  { input_constraints := property.input_constraints
    output_constraints := property.output_constraints.map (fun c =>
      match c with
      | .lower n lo =>
        .lower n (max (lo + ((bounds_after n).bmin - (bounds_before n).bmax)) lo)
      | .upper n up =>
        .upper n (min (up + ((bounds_after n).bmin - (bounds_before n).bmax)) up)) }

/-- Counterexample for C4: with one output constraint `UpperBound(x, 10)`,
before-bounds `{min 0, max 5}` and after-bounds `{min 1, max 3}`, the code
returns upper bound `6 = 10 + (after.min − before.max)`, while the claimed
shift `min(0, after.max − before.min) = min(0, 3 − 0) = 0` would leave the
bound at `10`: the code uses `after.min − before.max` for upper bounds as
well. -/
theorem update_property_upper_shift_counterexample :
    (update_property ⟨[], [.upper nX 10]⟩ (fun _ => ⟨0, 5⟩)
      (fun _ => ⟨1, 3⟩)).output_constraints = [.upper nX 6] ∧
    (6 : ℚ) ≠ 10 + min 0 ((3 : ℚ) - 0) := by
  constructor
  · show [BasicConstraint.upper nX (min (10 + ((1 : ℚ) - 5)) 10)] = [.upper nX 6]
    norm_num
  · norm_num

/-- C4 (amended): `update_property` shifts every lower-bound output
constraint by `max(0, after.min − before.max)` and every upper-bound output
constraint by `min(0, after.min − before.max)` — the same diff
`after.min − before.max` is used for both kinds — so each bound is clamped
never to become looser than its original value. -/
theorem update_property_shift_spec (p : BasicProperty) (bb ba : NeuronBounds) :
    (update_property p bb ba).input_constraints = p.input_constraints ∧
    (update_property p bb ba).output_constraints = p.output_constraints.map (fun c =>
      match c with
      | .lower n lo => .lower n (lo + max 0 ((ba n).bmin - (bb n).bmax))
      | .upper n up => .upper n (up + min 0 ((ba n).bmin - (bb n).bmax))) := by
  refine ⟨rfl, ?_⟩
  show p.output_constraints.map _ = _
  apply List.map_congr_left
  intro c _
  rcases c with ⟨n, lo⟩ | ⟨n, up⟩
  · have hmax : max (lo + ((ba n).bmin - (bb n).bmax)) lo =
        lo + max 0 ((ba n).bmin - (bb n).bmax) := by
      rcases le_total 0 ((ba n).bmin - (bb n).bmax) with h | h
      · rw [max_eq_right h, max_eq_left (by linarith)]
      · rw [max_eq_left h, max_eq_right (by linarith)]
        ring
    dsimp only
    rw [hmax]
  · have hmin : min (up + ((ba n).bmin - (bb n).bmax)) up =
        up + min 0 ((ba n).bmin - (bb n).bmax) := by
      rcases le_total 0 ((ba n).bmin - (bb n).bmax) with h | h
      · rw [min_eq_right (by linarith), min_eq_left h]
        ring
      · rw [min_eq_left (by linarith), min_eq_right h]
    dsimp only
    rw [hmin]

/-- Tightening relation between an original constraint and the returned one:
same kind, and the returned lower bound is at least the original lower bound
while the returned upper bound is at most the original upper bound. -/
def constraintTighter : BasicConstraint → BasicConstraint → Prop
  | .lower _ lo, .lower _ lo2 => lo ≤ lo2
  | .upper _ up, .upper _ up2 => up2 ≤ up
  | _, _ => False

theorem forall2_map_self {α : Type} {R : α → α → Prop} {f : α → α} :
    ∀ l : List α, (∀ c ∈ l, R c (f c)) → List.Forall₂ R l (l.map f) := by
  intro l h
  induction l with
  | nil => exact List.Forall₂.nil
  | cons x xs ih =>
    exact List.Forall₂.cons (h x (List.mem_cons_self _ _))
      (ih (fun c hc => h c (List.mem_cons_of_mem _ hc)))

/-- C5: every output constraint returned by `update_property` is at least as
tight as the corresponding input constraint, position by position: a
returned lower bound is ≥ the original lower bound and a returned upper
bound is ≤ the original upper bound. -/
theorem update_property_never_loosens (p : BasicProperty) (bb ba : NeuronBounds) :
    List.Forall₂ constraintTighter p.output_constraints
      (update_property p bb ba).output_constraints := by
  apply forall2_map_self
  intro c _
  rcases c with ⟨n, lo⟩ | ⟨n, up⟩
  · exact le_max_right _ _
  · exact min_le_right _ _

/-- The kind (lower or upper) and constrained neuron of a constraint. -/
def constraintKindNid : BasicConstraint → Bool × NeuronId
  | .lower n _ => (true, n)
  | .upper n _ => (false, n)

/-- C10: `update_property` returns a property with the very same input
constraints, and output constraints with the same neuron ids, kinds and
order as the input property — only the numeric bound values change. -/
theorem update_property_frame (p : BasicProperty) (bb ba : NeuronBounds) :
    (update_property p bb ba).input_constraints = p.input_constraints ∧
    (update_property p bb ba).output_constraints.map constraintKindNid =
      p.output_constraints.map constraintKindNid := by
  refine ⟨rfl, ?_⟩
  show (p.output_constraints.map _).map _ = _
  rw [List.map_map]
  apply List.map_congr_left
  intro c _
  rcases c with ⟨n, lo⟩ | ⟨n, up⟩ <;> rfl

/-- A feed-forward network: `L-1` weights tables, `L` bias tables and `L`
activation tags (src/redesign/datastructures.py, `Network`; the constructor
asserts `len(weights) + 1 == len(biases) == len(activations)`, carried here
as hypotheses where a claim needs it). -/
structure Network where
  weights : List WeightsTable
  biases : List WeightsTable
  activations : List ActivationFunction

/-- An adversarial property: bound constraints plus the winner comparator
flag and slack (src/redesign/marabou_properties/adverserial_property.py,
`AdversarialProperty`). -/
structure AdversarialProperty where
  input_constraints : List BasicConstraint
  output_constraints : List BasicConstraint
  minimal_is_the_winner : Bool
  slack : ℚ := 0

/-- Whether a constraint is a `LowerBound` (`isinstance(c, LowerBound)`). -/
def isLowerBound : BasicConstraint → Bool
  | .lower _ _ => true
  | .upper _ _ => false

/-- The Python tuple comparison used by the winner scan: `current cmp state`
where `cmp` is `<` when the minimum wins, else `>`; the initial sentinel
`(±inf, None)` is the `none` state, against which any real bound wins.  Ties
on the bound value fall back to the `NeuronId` ordering, as Python tuple
comparison does. -/
def pairCmp (minimal : Bool) (cur : ℚ × NeuronId) : Option (ℚ × NeuronId) → Bool
  | none => true
  | some (v, nid) =>
    if minimal then decide (cur.1 < v) || (decide (cur.1 = v) && nidLt cur.2 nid)
    else decide (v < cur.1) || (decide (cur.1 = v) && nidLt nid cur.2)

/-- The winner / runner-up scan over the property's output lower bounds
(src/redesign/marabou_properties/adverserial_property.py,
`find_winner_and_runnerup`): a running `(winner, runnerup)` pair starts at
the sentinel and each lower bound either becomes the new winner, pushing the
old winner to runner-up, or the new runner-up.  `none` components model the
Python `None` left when fewer than one/two lower bounds exist. -/
def find_winner_and_runnerup (property : AdversarialProperty) :
    Option NeuronId × Option NeuronId :=
  let lowerbounds := property.output_constraints.filter isLowerBound
  let scan := lowerbounds.foldl
    (fun (st : Option (ℚ × NeuronId) × Option (ℚ × NeuronId)) c =>
      match c with
      | .lower nid lo =>
        if pairCmp property.minimal_is_the_winner (lo, nid) st.1 then ((lo, nid), st.1)
        else if pairCmp property.minimal_is_the_winner (lo, nid) st.2 then (st.1, (lo, nid))
        else st
      | .upper _ _ => st)
    (none, none)
  (scan.1.map Prod.snd, scan.2.map Prod.snd)

/-- The synthetic output neuron of the adversarial transform
(src/redesign/marabou_properties/adverserial_property.py,
`ADVERSARIAL_PROPERTY_OUTPUT_NEURON_ID`). -/
def ADVERSARIAL_PROPERTY_OUTPUT_NEURON_ID : NeuronId := .mk "c" none none []

/-- The adversarial property transform
(src/redesign/marabou_properties/adverserial_property.py,
`prepare_network_adversarial`): locates winner and runner-up, replaces the
last weights and bias tables by one output neuron `c` whose incoming weights
are `w_winner − w_runnerup` (bias `b_winner − b_runnerup − slack`) when the
minimum wins, else `w_runnerup − w_winner` (bias
`b_runnerup − b_winner − slack`), and replaces the property by
`LowerBound(c, 0)`.  `none` models the crashes on a missing winner,
runner-up or last layer. -/
def prepare_network_adversarial (network : Network)
    (property : AdversarialProperty) : Option (Network × BasicProperty) := do
  let winner ← (find_winner_and_runnerup property).1
  let runnerup ← (find_winner_and_runnerup property).2
  let last_layer_weights ← network.weights.getLast?
  let last_layer_biases ← network.biases.getLast?
  let output_neuron := ADVERSARIAL_PROPERTY_OUTPUT_NEURON_ID
  let wdiff : NeuronId → ℚ := fun s =>
    if property.minimal_is_the_winner then
      last_layer_weights.tbl.val s winner - last_layer_weights.tbl.val s runnerup
    else
      last_layer_weights.tbl.val s runnerup - last_layer_weights.tbl.val s winner
  let bdiff : ℚ :=
    if property.minimal_is_the_winner then
      last_layer_biases.tbl.val UNIT winner - last_layer_biases.tbl.val UNIT runnerup -
        property.slack
    else
      last_layer_biases.tbl.val UNIT runnerup - last_layer_biases.tbl.val UNIT winner -
        property.slack
  let new_output_layer_weights : WeightsTable :=
    ⟨⟨last_layer_weights.tbl.srcs, [output_neuron],
      fun s d => if nidEq d output_neuron then wdiff s else 0⟩, none, []⟩
  let new_output_layer_biases : WeightsTable :=
    ⟨⟨[UNIT], [output_neuron],
      fun _ d => if nidEq d output_neuron then bdiff else 0⟩, none, []⟩
  return (⟨network.weights.dropLast ++ [new_output_layer_weights],
           network.biases.dropLast ++ [new_output_layer_biases],
           network.activations⟩,
          ⟨property.input_constraints, [.lower output_neuron 0]⟩)

/-- Example output neuron `y0` for the adversarial scenario. -/
def yA : NeuronId := .mk "y0" none none []

/-- Example output neuron `y1` for the adversarial scenario. -/
def yB : NeuronId := .mk "y1" none none []

/-- The output-layer weights table of the concrete adversarial example:
`w(x, y0) = 1` and `w(x, y1) = 0`. -/
def advLastW : WeightsTable :=
  ⟨⟨[nX], [yA, yB], fun _ d => if nidEq d yA then 1 else 0⟩, none, []⟩

/-- The output-layer bias table of the concrete adversarial example (all
biases `0`). -/
def advLastB : WeightsTable :=
  ⟨⟨[UNIT], [yA, yB], fun _ _ => 0⟩, none, []⟩

/-- Concrete network for the C3 counterexample: one input `x`, outputs
`y0`, `y1`, with `w(x, y0) = 1` and `w(x, y1) = 0`, all biases `0`. -/
def advNet : Network :=
  ⟨[advLastW],
   [⟨⟨[UNIT], [nX], fun _ _ => 0⟩, none, []⟩, advLastB],
   [.Id, .Id]⟩

/-- Concrete adversarial property for the C3 scenario:
`minimal_is_the_winner = False`, `y0` with lower bound 5, `y1` with lower
bound 2, slack 0. -/
def advProp : AdversarialProperty :=
  ⟨[], [.lower yA 5, .lower yB 2], false, 0⟩

/-- Counterexample for C3: in the claimed scenario the code indeed selects
winner `y0` and runner-up `y1`, but the appended output neuron computes
`y1 − y0 − slack` (its `x`-weight is `w(x,y1) − w(x,y0) = −1`), not the
claimed `y0 − y1 − slack` (which would give `+1`): with
`minimal_is_the_winner = False` the transform encodes
`runnerup − winner`. -/
theorem adversarial_transform_counterexample :
    (prepare_network_adversarial advNet advProp).map
      (fun r => r.1.weights.getLast?.map
        (fun t => t.tbl.val nX ADVERSARIAL_PROPERTY_OUTPUT_NEURON_ID)) =
      some (some ((0 : ℚ) - 1)) ∧
    advNet.weights.getLast?.map
      (fun t => t.tbl.val nX yA - t.tbl.val nX yB - advProp.slack) =
      some ((1 : ℚ) - 0 - 0) ∧
    ((0 : ℚ) - 1) ≠ ((1 : ℚ) - 0 - 0) := by
  refine ⟨rfl, rfl, by norm_num⟩

/-- C3 (amended): for an `AdversarialProperty` with
`minimal_is_the_winner = False` and output lower bounds `y0 ↦ 5`, `y1 ↦ 2`,
the transform selects winner `y0` and runner-up `y1`, and produces a network
whose single new output neuron `c` computes `y1 − y0 − slack`
(runner-up minus winner), together with the property `LowerBound(c, 0)`. -/
theorem adversarial_transform_spec (net : Network) (ics : List BasicConstraint)
    (y0 y1 : NeuronId) (slack : ℚ) (wLast bLast : WeightsTable)
    (hw : net.weights.getLast? = some wLast) (hb : net.biases.getLast? = some bLast) :
    find_winner_and_runnerup ⟨ics, [.lower y0 5, .lower y1 2], false, slack⟩ =
      (some y0, some y1) ∧
    ∃ wN bN,
      prepare_network_adversarial net ⟨ics, [.lower y0 5, .lower y1 2], false, slack⟩ =
        some (⟨net.weights.dropLast ++ [wN], net.biases.dropLast ++ [bN],
               net.activations⟩,
              ⟨ics, [.lower ADVERSARIAL_PROPERTY_OUTPUT_NEURON_ID 0]⟩) ∧
      wN.tbl.srcs = wLast.tbl.srcs ∧
      wN.tbl.dests = [ADVERSARIAL_PROPERTY_OUTPUT_NEURON_ID] ∧
      (∀ s, wN.tbl.val s ADVERSARIAL_PROPERTY_OUTPUT_NEURON_ID =
        wLast.tbl.val s y1 - wLast.tbl.val s y0) ∧
      bN.tbl.val UNIT ADVERSARIAL_PROPERTY_OUTPUT_NEURON_ID =
        bLast.tbl.val UNIT y1 - bLast.tbl.val UNIT y0 - slack := by
  have hfw : find_winner_and_runnerup ⟨ics, [.lower y0 5, .lower y1 2], false, slack⟩ =
      (some y0, some y1) := rfl
  refine ⟨hfw,
    ⟨⟨wLast.tbl.srcs, [ADVERSARIAL_PROPERTY_OUTPUT_NEURON_ID],
      fun s d => if nidEq d ADVERSARIAL_PROPERTY_OUTPUT_NEURON_ID then
        wLast.tbl.val s y1 - wLast.tbl.val s y0 else 0⟩, none, []⟩,
    ⟨⟨[UNIT], [ADVERSARIAL_PROPERTY_OUTPUT_NEURON_ID],
      fun _ d => if nidEq d ADVERSARIAL_PROPERTY_OUTPUT_NEURON_ID then
        bLast.tbl.val UNIT y1 - bLast.tbl.val UNIT y0 - slack else 0⟩, none, []⟩,
    ?_, rfl, rfl, fun s => ?_, ?_⟩
  · simp only [prepare_network_adversarial, hfw, hw, hb, Option.bind_eq_bind,
      Option.some_bind]
    rfl
  · simp [nidEq_refl]
  · simp [nidEq_refl]

/-- Witness for C3 (amended): the transform applied to the concrete
two-output network. -/
theorem adversarial_transform_spec_witness :
    advNet.weights.getLast? = some advLastW ∧
    advNet.biases.getLast? = some advLastB ∧
    (find_winner_and_runnerup ⟨[], [.lower yA 5, .lower yB 2], false, 0⟩ =
        (some yA, some yB) ∧
      ∃ wN bN,
        prepare_network_adversarial advNet ⟨[], [.lower yA 5, .lower yB 2], false, 0⟩ =
          some (⟨advNet.weights.dropLast ++ [wN], advNet.biases.dropLast ++ [bN],
                 advNet.activations⟩,
                ⟨[], [.lower ADVERSARIAL_PROPERTY_OUTPUT_NEURON_ID 0]⟩) ∧
        wN.tbl.srcs = advLastW.tbl.srcs ∧
        wN.tbl.dests = [ADVERSARIAL_PROPERTY_OUTPUT_NEURON_ID] ∧
        (∀ s, wN.tbl.val s ADVERSARIAL_PROPERTY_OUTPUT_NEURON_ID =
          advLastW.tbl.val s yB - advLastW.tbl.val s yA) ∧
        bN.tbl.val UNIT ADVERSARIAL_PROPERTY_OUTPUT_NEURON_ID =
          advLastB.tbl.val UNIT yB - advLastB.tbl.val UNIT yA - 0) :=
  ⟨rfl, rfl, adversarial_transform_spec advNet [] yA yB 0 advLastW advLastB rfl rfl⟩

/-- A weighted variable of a multi-variable constraint
(src/redesign/marabou_properties/acas_xu_property.py, `Term`). -/
structure Term where
  nid : NeuronId
  factor : ℚ := 1

/-- A multi-variable linear constraint over output neurons: the Python
`MultiVarLowerBound` / `MultiVarUpperBound`, whose `vars` may mix `Term`s and
bare `NeuronId`s. -/
inductive MultiVarConstraint where
  | lowerM (vars : List (Term ⊕ NeuronId)) (lo : ℚ)
  | upperM (vars : List (Term ⊕ NeuronId)) (up : ℚ)

/-- An ACAS-Xu conjunction property
(src/redesign/marabou_properties/acas_xu_property.py,
`ACASXuConjunctionProperty`). -/
structure ACASXuConjunctionProperty where
  input_constraints : List BasicConstraint
  output_constraints : List MultiVarConstraint

/-- The error raised by the conjunction transform when the inequalities mix
relational directions (the failing `assert` "All constraints should have the
same relational operator" in `prepare_network_acas_xu_conjunction`; the spec
names this error kind `MixedRelationalOperatorError`). -/
inductive ConjunctionError where
  | mixedRelationalOperator
deriving DecidableEq

/-- The sympy relational operator of a constraint's inequality: a
`MultiVarLowerBound` builds `lower < lhs`, which Python's reflected
comparison turns into `lhs > lower` (rel_op ">"), and a `MultiVarUpperBound`
builds `lhs < upper` (rel_op "<"). -/
inductive RelOp where
  | gt
  | lt
deriving DecidableEq

/-- The relational operator of one constraint (see `RelOp`). -/
def constraintRelOp : MultiVarConstraint → RelOp
  | .lowerM _ _ => .gt
  | .upperM _ _ => .lt

/-- The Python guard `len(set(rel_ops)) == 1`: true exactly when the list of
operators is non-empty and all its members are equal. -/
def allSameRelOp : List RelOp → Bool
  | [] => false
  | r :: rs => rs.all (fun x => x == r)

/-- The underlying neuron of a term-or-neuron (`extract_neuron`). -/
def varNid : Term ⊕ NeuronId → NeuronId
  | .inl t => t.nid
  | .inr n => n

/-- The factor of a term-or-neuron (1.0 for a bare neuron,
`convert_neuron_to_symbol`). -/
def varFactor : Term ⊕ NeuronId → ℚ
  | .inl t => t.factor
  | .inr _ => 1

/-- The variables of a multi-variable constraint. -/
def constraintVars : MultiVarConstraint → List (Term ⊕ NeuronId)
  | .lowerM vs _ => vs
  | .upperM vs _ => vs

/-- The coefficient of source neuron `s` in one isolated inequality: sympy's
`Add` combines like terms, so it is the sum of the factors of the variables
naming `s`. -/
def coeffOf (c : MultiVarConstraint) (s : NeuronId) : ℚ :=
  ((constraintVars c).filter (fun v => nidEq (varNid v) s)).foldl
    (fun acc v => acc + varFactor v) 0

/-- First-occurrence deduplication of neuron labels under Python equality
(the row index of the assembled weights DataFrame). -/
def dedupN (l : List NeuronId) : List NeuronId :=
  l.foldl (fun acc x => if memN x acc then acc else acc ++ [x]) []

/-- The synthesized output neurons `c1 … cN`, one per inequality. -/
def conjOutputNeurons (property : ACASXuConjunctionProperty) : List NeuronId :=
  (List.range property.output_constraints.length).map
    (fun i => NeuronId.mk ("c" ++ toString (i + 1)) none none [])

/-- The conjunction property transform
(src/redesign/marabou_properties/acas_xu_property.py,
`prepare_network_acas_xu_conjunction`): if the inequalities mix relational
directions the transform fails with the mixed-operator error before
building anything; otherwise it appends one identity-activated output layer
with one neuron per inequality carrying that inequality's coefficients, and
replaces the property by one zero-bound constraint per new neuron
(`LowerBound` for ">" inequalities, `UpperBound` for "<"). -/
def prepare_network_acas_xu_conjunction (network : Network)
    (property : ACASXuConjunctionProperty) :
    Except ConjunctionError (Network × BasicProperty) :=
  if allSameRelOp (property.output_constraints.map constraintRelOp) then
    let output_neurons := conjOutputNeurons property
    let pairs := List.zip output_neurons property.output_constraints
    let new_output_layer_weights : WeightsTable :=
      ⟨⟨dedupN ((property.output_constraints.map
            (fun c => (constraintVars c).map varNid)).flatten),
        output_neurons,
        fun s d => pairs.foldl
          (fun acc nc => if nidEq d nc.1 then coeffOf nc.2 s else acc) 0⟩, none, []⟩
    let new_output_layer_biases : WeightsTable :=
      ⟨⟨[UNIT], output_neurons, fun _ _ => 0⟩, none, []⟩
    .ok (⟨network.weights ++ [new_output_layer_weights],
          network.biases ++ [new_output_layer_biases],
          network.activations ++ [.Id]⟩,
         ⟨property.input_constraints,
          pairs.map (fun nc =>
            match nc.2 with
            | .lowerM _ _ => .lower nc.1 0
            | .upperM _ _ => .upper nc.1 0)⟩)
  else .error .mixedRelationalOperator

/-- Whether a multi-variable constraint is a `MultiVarLowerBound`. -/
def isMultiVarLower : MultiVarConstraint → Bool
  | .lowerM _ _ => true
  | .upperM _ _ => false

/-- C8: a conjunction property whose output constraints contain at least one
`MultiVarLowerBound` and at least one `MultiVarUpperBound` is rejected with
the mixed-relational-operator error, and no transformed `(network,
BasicProperty)` pair — in particular no appended output layer — is
produced. -/
theorem conjunction_mixed_directions_rejected (network : Network)
    (property : ACASXuConjunctionProperty)
    (cl cu : MultiVarConstraint)
    (hclmem : cl ∈ property.output_constraints) (hcl : isMultiVarLower cl = true)
    (hcumem : cu ∈ property.output_constraints) (hcu : isMultiVarLower cu = false) :
    prepare_network_acas_xu_conjunction network property =
      .error ConjunctionError.mixedRelationalOperator := by
  have hgt : RelOp.gt ∈ property.output_constraints.map constraintRelOp := by
    rcases cl with ⟨vs, lo⟩ | ⟨vs, up⟩
    · exact List.mem_map_of_mem constraintRelOp hclmem
    · cases hcl
  have hlt : RelOp.lt ∈ property.output_constraints.map constraintRelOp := by
    rcases cu with ⟨vs, lo⟩ | ⟨vs, up⟩
    · cases hcu
    · exact List.mem_map_of_mem constraintRelOp hcumem
  have hfail : allSameRelOp (property.output_constraints.map constraintRelOp) = false := by
    rcases hlist : property.output_constraints.map constraintRelOp with _ | ⟨r, rs⟩
    · rw [hlist] at hgt
      cases hgt
    · rw [hlist] at hgt hlt
      show rs.all (fun x => x == r) = false
      rcases r with _ | _
      · apply Bool.eq_false_iff.mpr
        intro hall
        rw [List.all_eq_true] at hall
        rcases List.mem_cons.mp hlt with hc | hc
        · cases hc
        · cases hall _ hc
      · apply Bool.eq_false_iff.mpr
        intro hall
        rw [List.all_eq_true] at hall
        rcases List.mem_cons.mp hgt with hc | hc
        · cases hc
        · cases hall _ hc
  rw [prepare_network_acas_xu_conjunction, hfail]
  rfl

/-- Concrete mixed conjunction property for the C8 witness: one
`MultiVarLowerBound` and one `MultiVarUpperBound` over `y0`, `y1`. -/
def mixedConjProp : ACASXuConjunctionProperty :=
  ⟨[], [.lowerM [.inr yA] 1, .upperM [.inr yB] 2]⟩

/-- Witness for C8: the mixed conjunction property on the concrete example
network is rejected. -/
theorem conjunction_mixed_directions_rejected_witness :
    (MultiVarConstraint.lowerM [.inr yA] 1) ∈ mixedConjProp.output_constraints ∧
    isMultiVarLower (.lowerM [.inr yA] 1) = true ∧
    (MultiVarConstraint.upperM [.inr yB] 2) ∈ mixedConjProp.output_constraints ∧
    isMultiVarLower (.upperM [.inr yB] 2) = false ∧
    prepare_network_acas_xu_conjunction advNet mixedConjProp =
      .error ConjunctionError.mixedRelationalOperator :=
  ⟨List.mem_cons_self _ _, rfl, List.mem_cons_of_mem _ (List.mem_cons_self _ _), rfl,
   conjunction_mixed_directions_rejected advNet mixedConjProp
     (.lowerM [.inr yA] 1) (.upperM [.inr yB] 2)
     (List.mem_cons_self _ _) rfl
     (List.mem_cons_of_mem _ (List.mem_cons_self _ _)) rfl⟩

/-- Application of an activation function to one value (the `function`
property of `ActivationFunction`). -/
def applyActivation : ActivationFunction → ℚ → ℚ
  | .Relu, x => max x 0
  | .Id, x => x

/-- One entry of the matrix product `current @ w`: the current layer values,
keyed by the previous layer's labels, combined with column `d` of `w`.  The
numpy product is positional; under the network invariant
`previous.dests == w.srcs` the label-keyed sum coincides with it. -/
def dotAt (xs : List (NeuronId × ℚ)) (w : WeightsTable) (d : NeuronId) : ℚ :=
  xs.foldl (fun acc p => acc + p.2 * w.tbl.val p.1 d) 0

/-- One step of the feed-forward loop: `act(current @ w + b)`, producing the
values of `w`'s destination neurons. -/
def layerForward (w b : WeightsTable) (act : ActivationFunction)
    (xs : List (NeuronId × ℚ)) : List (NeuronId × ℚ) :=
  w.tbl.dests.map (fun d => (d, applyActivation act (dotAt xs w d + b.tbl.val UNIT d)))

/-- A placeholder empty table (used only as the default of list lookups whose
success the callers guarantee). -/
def emptyTable : WeightsTable :=
  ⟨⟨[], [], fun _ _ => 0⟩, none, []⟩

/-- The feed-forward evaluation of a network on one input assignment
(src/redesign/datastructures.py, `Network.evaluate` with
`return_as_dict=True`): the input values plus the input biases go through
the first activation, the middle loop folds
`zip(weights[:-1], biases[1:-1], activations[1:-1])`, and the last weights
and bias tables with the last activation produce the outputs, keyed by the
output neuron labels. -/
def Network.evaluate (net : Network) (values : NeuronId → ℚ) : List (NeuronId × ℚ) :=
  match net.weights with
  | [] => []
  | w0 :: _ =>
    let act0 := net.activations.headD .Id
    let b0 := net.biases.headD emptyTable
    let xs0 := w0.tbl.srcs.map
      (fun n => (n, applyActivation act0 (values n + b0.tbl.val UNIT n)))
    let middle := List.zip net.weights.dropLast
      (List.zip (net.biases.drop 1).dropLast (net.activations.drop 1).dropLast)
    let xsMid := middle.foldl (fun xs wba => layerForward wba.1 wba.2.1 wba.2.2 xs) xs0
    layerForward (net.weights.getLastD w0) (net.biases.getLastD emptyTable)
      (net.activations.getLastD .Id) xsMid

/-- Lookup of one neuron's value in an evaluation result (Python dict
indexing; a missing key raises in Python and is unreachable for well-formed
networks, here it defaults to 0). -/
def lookupVal (out : List (NeuronId × ℚ)) (n : NeuronId) : ℚ :=
  ((out.find? (fun p => nidEq p.1 n)).map Prod.snd).getD 0

/-- The comparison tolerance of `compare_with_precision` (eps = 1e-4). -/
def EPS : ℚ := 1 / 10000

/-- `lt_with_precision(a, b)`: differences smaller than `EPS` in absolute
value count as equal (so not less); otherwise the sign of `a − b` decides
(src/redesign/marabou_properties/basic_property.py). -/
def lt_with_precision (a b : ℚ) : Bool :=
  if |a - b| < EPS then false else decide (a - b < 0)

/-- `gt_with_precision(a, b)` (see `lt_with_precision`). -/
def gt_with_precision (a b : ℚ) : Bool :=
  if |a - b| < EPS then false else decide (0 < a - b)

/-- Whether one constraint is satisfied by the given values
(src/redesign/marabou_properties/basic_property.py,
`is_constraint_satisfied`): a lower bound fails when the value is
`lt_with_precision`-below it, an upper bound when the value is
`gt_with_precision`-above it. -/
def constraint_satisfied (get : NeuronId → ℚ) : BasicConstraint → Bool
  | .lower n lo => !(lt_with_precision (get n) lo)
  | .upper n up => !(gt_with_precision (get n) up)

/-- `are_constraints_satisfied`: all constraints hold. -/
def are_constraints_satisfied (get : NeuronId → ℚ) (cs : List BasicConstraint) : Bool :=
  cs.all (constraint_satisfied get)

/-- Whether an assignment satisfies a property on a network
(src/redesign/marabou_properties/basic_property.py,
`is_satisfying_assignment`, with its default `verify_input=True`): the input
constraints are checked on the assignment itself, then every output
constraint on the network's evaluation. -/
def is_satisfying_assignment (net : Network) (values : NeuronId → ℚ)
    (test_property : BasicProperty) : Bool :=
  if are_constraints_satisfied values test_property.input_constraints then
    are_constraints_satisfied (lookupVal (net.evaluate values))
      test_property.output_constraints
  else false

/-- One step of a refinement strategy: either a `RefinementStep` or an
`AbstractionStep` (src/redesign/refinement/refine.py, `Step`). -/
inductive LoopStep where
  | refineS (s : RefinementStep)
  | abstractS (s : AbstractionStep)

/-- A refinement strategy, modelled as the explicit function the
argument-introspecting invocation boils down to: the current network in,
the ordered steps out. -/
def RStrategy : Type := Network → List (Nat × LoopStep)

/-- Application of one `(layer_index, step)` to the network's tables: a
refinement step runs `refine_layer` on `weights[li-1]`, `weights[li]`,
`biases[li]`, an abstraction step runs `abstract_layer` there; the three
results are written back.  `none` models the exceptions of out-of-range
indices or failing layer operations. -/
def applyLoopStep (net : Network) (li : Nat) (stp : LoopStep) : Option Network :=
  match net.weights.get? (li - 1), net.weights.get? li, net.biases.get? li with
  | some wIn, some wOut, some bl =>
    match (match stp with
           | .refineS s => refine_layer wIn wOut bl s
           | .abstractS s => abstract_layer wIn wOut bl s) with
    | none => none
    | some (a, b, c) =>
      some ⟨(net.weights.set (li - 1) a).set li b, net.biases.set li c, net.activations⟩
  | _, _, _ => none

/-- The loop state of `refine_until_not_satisfying`: the current network and
the current `test_property` (reassigned by `update_property` when one is
supplied). -/
def LoopState : Type := Network × BasicProperty

/-- One loop-body iteration without the witness check: apply the step, then
update the property on the new network when an updater is supplied. -/
def applyOneStep (upd : Option (Network → BasicProperty)) (s : LoopState)
    (e : Nat × LoopStep) : Option LoopState :=
  match applyLoopStep s.1 e.1 e.2 with
  | none => none
  | some net' => some (net', match upd with | none => s.2 | some f => f net')

/-- Whether any accumulated spurious witness stops being a satisfying
assignment on the current network and property (the early-return condition
of `refine_until_not_satisfying`). -/
def anyWitnessFails (wits : List (NeuronId → ℚ)) (s : LoopState) : Bool :=
  wits.any (fun w => !(is_satisfying_assignment s.1 w s.2))

/-- The inner `for layer_index, step in steps` loop of
`refine_until_not_satisfying`: each step is applied, the property updated,
and every witness re-checked; the loop returns early (`true`) at the first
step after which some witness fails, else finishes the batch (`false`). -/
def processSteps (upd : Option (Network → BasicProperty))
    (wits : List (NeuronId → ℚ)) :
    LoopState → List (Nat × LoopStep) → Option (LoopState × Bool)
  | s, [] => some (s, false)
  | s, e :: rest =>
    match applyOneStep upd s e with
    | none => none
    | some s' =>
      if anyWitnessFails wits s' then some (s', true) else processSteps upd wits s' rest

/-- The refinement loop (src/redesign/refinement/refine.py,
`refine_until_not_satisfying`): each outer iteration queries the strategy on
the current network; an empty batch returns with `did_refine=False`; a batch
during which some witness fails returns that network with
`did_refine=True`; otherwise the loop repeats.  `fuel` bounds the outer
`while True` (the Python loop may not terminate); the returned `Bool` is the
`did_refine` field of the statistics. -/
def refine_until_not_satisfying (fuel : Nat) (strategy : RStrategy)
    (upd : Option (Network → BasicProperty)) (wits : List (NeuronId → ℚ))
    (s : LoopState) : Option (Network × Bool) :=
  match fuel with
  | 0 => none
  | fuel + 1 =>
    if (strategy s.1).isEmpty then some (s.1, false)
    else
      match processSteps upd wits s (strategy s.1) with
      | none => none
      | some (sR, true) => some (sR.1, true)
      | some (sR, false) => refine_until_not_satisfying fuel strategy upd wits sR

/-- The state after applying a prefix of steps (specification function for
the first-failure theorem). -/
def stateAfter (upd : Option (Network → BasicProperty)) :
    LoopState → List (Nat × LoopStep) → Option LoopState
  | s, [] => some s
  | s, e :: rest =>
    match applyOneStep upd s e with
    | none => none
    | some s' => stateAfter upd s' rest

/-- Reachability through completed strategy batches in which every
intermediate witness check passed: `ReachOK s t` says the loop ran zero or
more full batches from `s` to `t` and after every single step of those
batches all accumulated witnesses were still satisfying. -/
inductive ReachOK (strategy : RStrategy) (upd : Option (Network → BasicProperty))
    (wits : List (NeuronId → ℚ)) : LoopState → LoopState → Prop where
  | refl (s : LoopState) : ReachOK strategy upd wits s s
  | step (s t u : LoopState) :
      strategy s.1 ≠ [] →
      (∀ j, 1 ≤ j → j ≤ (strategy s.1).length →
        ∃ v, stateAfter upd s ((strategy s.1).take j) = some v ∧
          anyWitnessFails wits v = false) →
      stateAfter upd s (strategy s.1) = some t →
      ReachOK strategy upd wits t u →
      ReachOK strategy upd wits s u

theorem processSteps_false_spec (upd : Option (Network → BasicProperty))
    (wits : List (NeuronId → ℚ)) :
    ∀ (steps : List (Nat × LoopStep)) (s u : LoopState),
      processSteps upd wits s steps = some (u, false) →
      stateAfter upd s steps = some u ∧
      ∀ j, 1 ≤ j → j ≤ steps.length →
        ∃ v, stateAfter upd s (steps.take j) = some v ∧
          anyWitnessFails wits v = false := by
  intro steps
  induction steps with
  | nil =>
    intro s u h
    simp only [processSteps, Option.some.injEq, Prod.mk.injEq] at h
    refine ⟨?_, ?_⟩
    · rw [stateAfter, h.1]
    · intro j hj1 hj2
      simp only [List.length_nil] at hj2
      omega
  | cons e rest ih =>
    intro s u h
    rw [processSteps] at h
    cases happ : applyOneStep upd s e with
    | none =>
      rw [happ] at h
      exact Option.noConfusion h
    | some sNext =>
      rw [happ] at h
      dsimp only at h
      by_cases hfail : anyWitnessFails wits sNext = true
      · rw [if_pos hfail] at h
        simp only [Option.some.injEq, Prod.mk.injEq] at h
        cases h.2
      · rw [if_neg hfail] at h
        obtain ⟨h1, h2⟩ := ih sNext u h
        have hfail2 : anyWitnessFails wits sNext = false := Bool.eq_false_iff.mpr hfail
        constructor
        · simp only [stateAfter, happ]
          exact h1
        · intro j hj1 hj2
          rcases j with _ | j
          · omega
          rcases j with _ | j
          · refine ⟨sNext, ?_, hfail2⟩
            simp only [List.take_succ_cons, List.take_zero, stateAfter, happ]
          · simp only [List.length_cons] at hj2
            obtain ⟨v, hv1, hv2⟩ := h2 (j + 1) (by omega) (by omega)
            refine ⟨v, ?_, hv2⟩
            simp only [List.take_succ_cons, stateAfter, happ]
            exact hv1

theorem processSteps_true_spec (upd : Option (Network → BasicProperty))
    (wits : List (NeuronId → ℚ)) :
    ∀ (steps : List (Nat × LoopStep)) (s u : LoopState),
      processSteps upd wits s steps = some (u, true) →
      ∃ k, k + 1 ≤ steps.length ∧
        stateAfter upd s (steps.take (k + 1)) = some u ∧
        anyWitnessFails wits u = true ∧
        ∀ j, 1 ≤ j → j ≤ k →
          ∃ v, stateAfter upd s (steps.take j) = some v ∧
            anyWitnessFails wits v = false := by
  intro steps
  induction steps with
  | nil =>
    intro s u h
    simp only [processSteps, Option.some.injEq, Prod.mk.injEq] at h
    cases h.2
  | cons e rest ih =>
    intro s u h
    rw [processSteps] at h
    cases happ : applyOneStep upd s e with
    | none =>
      rw [happ] at h
      exact Option.noConfusion h
    | some sNext =>
      rw [happ] at h
      dsimp only at h
      by_cases hfail : anyWitnessFails wits sNext = true
      · rw [if_pos hfail] at h
        simp only [Option.some.injEq, Prod.mk.injEq] at h
        refine ⟨0, by simp, ?_, ?_, ?_⟩
        · simp only [List.take_succ_cons, List.take_zero, stateAfter, happ]
          rw [h.1]
        · rw [← h.1]
          exact hfail
        · intro j hj1 hj2
          omega
      · rw [if_neg hfail] at h
        obtain ⟨k, hk1, hk2, hk3, hk4⟩ := ih sNext u h
        have hfail2 : anyWitnessFails wits sNext = false := Bool.eq_false_iff.mpr hfail
        refine ⟨k + 1, by simp only [List.length_cons]; omega, ?_, hk3, ?_⟩
        · simp only [List.take_succ_cons, stateAfter, happ]
          exact hk2
        · intro j hj1 hj2
          rcases j with _ | j
          · omega
          rcases j with _ | j
          · refine ⟨sNext, ?_, hfail2⟩
            simp only [List.take_succ_cons, List.take_zero, stateAfter, happ]
          · obtain ⟨v, hv1, hv2⟩ := hk4 (j + 1) (by omega) (by omega)
            refine ⟨v, ?_, hv2⟩
            simp only [List.take_succ_cons, stateAfter, happ]
            exact hv1

/-- C9: whenever `refine_until_not_satisfying` returns with
`did_refine = True`, the run consists of completed strategy batches after
each single step of which every accumulated spurious witness still
satisfied the updated network (`ReachOK`), followed by a final batch whose
`(k+1)`-st step is the first one after which some witness fails: the check
runs after every single refinement or abstraction step, the returned
network is exactly the state after that first failing step, and after each
of the earlier steps of that batch every witness was still satisfying. -/
theorem refine_until_not_satisfying_first_fail (fuel : Nat) (strategy : RStrategy)
    (upd : Option (Network → BasicProperty)) (wits : List (NeuronId → ℚ))
    (s : LoopState)
    (hrun : (refine_until_not_satisfying fuel strategy upd wits s).map Prod.snd =
      some true) :
    ∃ t u k,
      ReachOK strategy upd wits s t ∧
      k + 1 ≤ (strategy t.1).length ∧
      stateAfter upd t ((strategy t.1).take (k + 1)) = some u ∧
      anyWitnessFails wits u = true ∧
      refine_until_not_satisfying fuel strategy upd wits s = some (u.1, true) ∧
      ∀ j, 1 ≤ j → j ≤ k →
        ∃ v, stateAfter upd t ((strategy t.1).take j) = some v ∧
          anyWitnessFails wits v = false := by
  induction fuel generalizing s with
  | zero => simp [refine_until_not_satisfying] at hrun
  | succ fuel ih =>
    rw [refine_until_not_satisfying] at hrun
    by_cases hemp : (strategy s.1).isEmpty = true
    · rw [if_pos hemp] at hrun
      simp at hrun
    · rw [if_neg hemp] at hrun
      cases hps : processSteps upd wits s (strategy s.1) with
      | none =>
        rw [hps] at hrun
        simp at hrun
      | some p =>
        rw [hps] at hrun
        rcases p with ⟨sR, b⟩
        cases b with
        | true =>
          obtain ⟨k, hk1, hk2, hk3, hk4⟩ :=
            processSteps_true_spec upd wits (strategy s.1) s sR hps
          refine ⟨s, sR, k, ReachOK.refl s, hk1, hk2, hk3, ?_, hk4⟩
          rw [refine_until_not_satisfying, if_neg hemp, hps]
        | false =>
          obtain ⟨t, u, k, hreach, hk1, hk2, hk3, hres, hall⟩ := ih sR hrun
          obtain ⟨hfull, hpass⟩ :=
            processSteps_false_spec upd wits (strategy s.1) s sR hps
          refine ⟨t, u, k, ?_, hk1, hk2, hk3, ?_, hall⟩
          · refine ReachOK.step s sR t ?_ hpass hfull hreach
            intro hnil
            rw [hnil] at hemp
            exact hemp rfl
          · rw [refine_until_not_satisfying, if_neg hemp, hps]
            exact hres

/-- Concrete input-to-hidden weights for the C9 witness network
(`x → h1` weight 1, `x → h2` weight 2). -/
def c9W0 : WeightsTable :=
  ⟨⟨[nX], [nH1, nH2], fun _ d => if nidEq d nH1 then 1 else 2⟩, none, []⟩

/-- Concrete hidden-to-output weights for the C9 witness network (both 1). -/
def c9W1 : WeightsTable :=
  ⟨⟨[nH1, nH2], [nY], fun _ _ => 1⟩, none, []⟩

/-- Zero input-layer biases for the C9 witness network. -/
def c9B0 : WeightsTable :=
  ⟨⟨[UNIT], [nX], fun _ _ => 0⟩, none, []⟩

/-- Zero hidden-layer biases for the C9 witness network. -/
def c9B1 : WeightsTable :=
  ⟨⟨[UNIT], [nH1, nH2], fun _ _ => 0⟩, none, []⟩

/-- Zero output-layer biases for the C9 witness network. -/
def c9B2 : WeightsTable :=
  ⟨⟨[UNIT], [nY], fun _ _ => 0⟩, none, []⟩

/-- The C9 witness network: `x → {h1, h2} → y`, identity activations.  On
input `x = 1` the output is `1·1 + 2·1 = 3`; after abstracting `h1, h2`
into the `Inc`-scaled neuron `A` it becomes `max(1,2)·(1+1) = 4`. -/
def c9Net : Network :=
  ⟨[c9W0, c9W1], [c9B0, c9B1, c9B2], [.Id, .Id, .Id]⟩

/-- The C9 witness property: output `y` at most 3 (satisfied by the original
network on the spurious witness, violated after the abstraction step). -/
def c9Prop : BasicProperty := ⟨[], [.upper nY 3]⟩

/-- The accumulated spurious witness of the C9 scenario: every input 1. -/
def c9Wit : NeuronId → ℚ := fun _ => 1

/-- The strategy of the C9 scenario: one abstraction step grouping `h1` and
`h2` at layer index 1. -/
def c9Strat : RStrategy := fun _ => [(1, .abstractS exStep)]

/-- The network after the single step of the C9 scenario. -/
def c9Net1 : Network := (applyLoopStep c9Net 1 (.abstractS exStep)).getD c9Net

/-- Witness for C9: on the concrete scenario the loop applies the single
abstraction step, detects after it that the accumulated witness stopped
satisfying, and returns that network with `did_refine = True`; the
first-failure theorem applies. -/
theorem refine_until_not_satisfying_first_fail_witness :
    (refine_until_not_satisfying 1 c9Strat none [c9Wit] (c9Net, c9Prop)).map
      Prod.snd = some true ∧
    (∃ t u k, ReachOK c9Strat none [c9Wit] (c9Net, c9Prop) t ∧
      k + 1 ≤ (c9Strat t.1).length ∧
      stateAfter none t ((c9Strat t.1).take (k + 1)) = some u ∧
      anyWitnessFails [c9Wit] u = true ∧
      refine_until_not_satisfying 1 c9Strat none [c9Wit] (c9Net, c9Prop) =
        some (u.1, true) ∧
      ∀ j, 1 ≤ j → j ≤ k →
        ∃ v, stateAfter none t ((c9Strat t.1).take j) = some v ∧
          anyWitnessFails [c9Wit] v = false) := by
  have happ : applyOneStep none (c9Net, c9Prop) (1, .abstractS exStep) =
      some (c9Net1, c9Prop) := rfl
  have hfail : anyWitnessFails [c9Wit] (c9Net1, c9Prop) = true := by
    norm_num [anyWitnessFails, is_satisfying_assignment, are_constraints_satisfied,
      constraint_satisfied, gt_with_precision, lt_with_precision, EPS, lookupVal,
      Network.evaluate, layerForward, dotAt, applyActivation, c9Net1, applyLoopStep,
      c9Net, c9W0, c9W1, c9B0, c9B1, c9B2, c9Prop, c9Wit, abstract_layer,
      abstract_weights_as_incoming, abstract_weights_as_outgoing, abstract_biases,
      exStep, nH1, nH2, nX, nY, UNIT, nidEq, memN, sortNids, insertLe, nidLe,
      signKey, scalingKey, aggList, List.set, List.find?, NeuronId.name,
      NeuronId.sign, NeuronId.scaling, freshTable]
    rw [if_neg (by decide : ¬("h2" : String) = "h1")]
    rw [show ((1 : ℚ) ⊔ 2) = 2 from max_eq_right (by norm_num)]
    norm_num
  have hrun : refine_until_not_satisfying 1 c9Strat none [c9Wit] (c9Net, c9Prop) =
      some (c9Net1, true) := by
    rw [refine_until_not_satisfying]
    simp only [c9Strat, List.isEmpty, processSteps, happ, hfail, if_true]
    rfl
  exact ⟨by rw [hrun]; rfl, refine_until_not_satisfying_first_fail 1 c9Strat none [c9Wit]
    (c9Net, c9Prop) (by rw [hrun]; rfl)⟩

end CegarNN








